import Mathlib

/-!
Verification of the rich-text editor document model.

This file gives a shallow embedding of the editor's document model and its
pure edit operations (src/editor/model.ts), the DOM renderer and parser
(src/editor/dom/renderer.ts, src/editor/dom/parser.ts) and the undo/redo
history manager, and proves the specified properties about them.

Conventions of the embedding:
- JavaScript strings are `List Char`; `String.prototype.slice` is `jsSlice`
  with the clamping semantics of JS (negative indices count from the end).
- JS numbers used as positions are `Int` (they may be negative); text lengths
  are `Nat` and are coerced where the source mixes them.
- A JS function that can throw on malformed input (indexing past the end of
  an array and dereferencing `undefined`) is modelled with `Option`, `none`
  standing for the thrown `TypeError`.
- `Mark` objects in the source are singleton wrappers around a `MarkType`,
  so a `Mark[]` array is modelled as `List MarkType`.
- DOM trees are modelled by the mutual inductives `DomNode`/`DomForest`;
  element tag names are stored in their uppercase `tagName` form.
-/

namespace Richtext

/-- Mark vocabulary of the editor: bold, italic, underline, code. -/
inductive MarkType where
  | bold
  | italic
  | underline
  | code
deriving DecidableEq, Repr

/-- A text run: a span of text carrying a list of marks. -/
structure TextNode where
  text : List Char
  marks : List MarkType
deriving DecidableEq, Repr

/-- A paragraph: an ordered list of text runs. -/
structure ParagraphNode where
  children : List TextNode
deriving DecidableEq, Repr

/-- A document: an ordered list of paragraphs. -/
structure DocNode where
  children : List ParagraphNode
deriving DecidableEq, Repr

/-- Key used to model JS string sort on mark type names:
"bold" < "code" < "italic" < "underline" alphabetically. -/
def markKey : MarkType → Nat
  | .bold => 0
  | .code => 1
  | .italic => 2
  | .underline => 3

/-- Insert into a list sorted by `markKey`. -/
def insertMark (m : MarkType) : List MarkType → List MarkType
  | [] => [m]
  | x :: xs => if markKey m ≤ markKey x then m :: x :: xs else x :: insertMark m xs

/-- Insertion sort by `markKey`; models `array.map(m => m.type).sort()`. -/
def sortMarks : List MarkType → List MarkType
  | [] => []
  | x :: xs => insertMark x (sortMarks xs)

/-- Source `marksEqual`: equal lengths and equal sorted type arrays. -/
def marksEqual (a b : List MarkType) : Bool :=
  a.length == b.length && sortMarks a == sortMarks b

/-- Source `hasMark`: membership test on the mark list. -/
def hasMark (marks : List MarkType) (t : MarkType) : Bool :=
  marks.any (fun m => m == t)

/-- Source `addMark`: append the mark unless already present. -/
def addMark (marks : List MarkType) (t : MarkType) : List MarkType :=
  if hasMark marks t then marks else marks ++ [t]

/-- Source `removeMark`: filter the mark out. -/
def removeMark (marks : List MarkType) (t : MarkType) : List MarkType :=
  marks.filter (fun m => !(m == t))

/-- Source `toggleMark`. -/
def toggleMark (marks : List MarkType) (t : MarkType) : List MarkType :=
  if hasMark marks t then removeMark marks t else addMark marks t

/-- Clamp a JS `slice` index into `[0, len]`: negative indices count from
the end of the string. -/
def jsClamp (len : Nat) (i : Int) : Nat :=
  (if i < 0 then max ((len : Int) + i) 0 else min i (len : Int)).toNat

/-- JS `s.slice(start, stop)`. -/
def jsSlice (s : List Char) (start stop : Int) : List Char :=
  (s.take (jsClamp s.length stop)).drop (jsClamp s.length start)

/-- JS one-argument `s.slice(start)`. -/
def jsSliceFrom (s : List Char) (start : Int) : List Char :=
  jsSlice s start (s.length : Int)

/-- Total text length of one paragraph (inner loop of `getDocLength`). -/
def paraTextLength (p : ParagraphNode) : Nat :=
  p.children.foldl (fun acc t => acc + t.text.length) 0

/-- Source `getDocLength`: per paragraph its text length plus one separator,
minus the final separator, floored at zero (the `Math.max(0, length - 1)`
is Nat truncated subtraction here). -/
def getDocLength (doc : DocNode) : Nat :=
  (doc.children.foldl (fun acc p => acc + paraTextLength p + 1) 0) - 1

/-- Result of `resolvePosition`: paragraph index, run index, offset in run.
The offset is an `Int` because the source computes `pos - currentPos`,
which is negative when `pos < 0`. -/
structure ResolvedPos where
  paraIndex : Nat
  textIndex : Nat
  offset : Int
deriving DecidableEq, Repr

/-- Outcome of the inner run loop of `resolvePosition`: either an early
return with run index and offset, or fall through with the accumulated
`currentPos`. -/
inductive RunScan where
  | found (textIndex : Nat) (offset : Int)
  | past (currentPos : Int)
deriving DecidableEq, Repr

/-- Inner loop of `resolvePosition` over the runs of one paragraph:
returns at the first run with `currentPos + textLen >= pos`. -/
def scanRuns (pos : Int) : List TextNode → Int → Nat → RunScan
  | [], currentPos, _ => .past currentPos
  | t :: rest, currentPos, idx =>
    if pos ≤ currentPos + (t.text.length : Int) then .found idx (pos - currentPos)
    else scanRuns pos rest (currentPos + (t.text.length : Int)) (idx + 1)

/-- Outcome of the paragraph loop of `resolvePosition`. `crash` models the
JS `TypeError` raised when a paragraph has no runs and
`para.children[para.children.length - 1].text` dereferences `undefined`. -/
inductive ParaScan where
  | found (r : ResolvedPos)
  | crash
  | fallthrough
deriving DecidableEq, Repr

/-- Outer loop of `resolvePosition` over paragraphs. After each paragraph
the separator is crossed (`currentPos += 1`); if that exceeds `pos`, the
location is clamped to the end of the paragraph's last run. -/
def scanParas (pos : Int) : List ParagraphNode → Int → Nat → ParaScan
  | [], _, _ => .fallthrough
  | p :: rest, currentPos, paraIdx =>
    match scanRuns pos p.children currentPos 0 with
    | .found ti off => .found ⟨paraIdx, ti, off⟩
    | .past cp =>
      if pos < cp + 1 then
        match p.children.getLast? with
        | some lastRun => .found ⟨paraIdx, p.children.length - 1, (lastRun.text.length : Int)⟩
        | none => .crash
      else scanParas pos rest (cp + 1) (paraIdx + 1)

/-- Source `resolvePosition`: maps an absolute offset to a tree location;
past the last paragraph it clamps to the end of the last run of the last
paragraph. `none` models the JS crash on a document or paragraph with no
children. -/
def resolvePosition (doc : DocNode) (pos : Int) : Option ResolvedPos :=
  match scanParas pos doc.children 0 0 with
  | .found r => some r
  | .crash => none
  | .fallthrough =>
    match doc.children.getLast? with
    | none => none
    | some lastPara =>
      match lastPara.children.getLast? with
      | none => none
      | some lastRun =>
        some ⟨doc.children.length - 1, lastPara.children.length - 1, (lastRun.text.length : Int)⟩

/-- The run used by `normalizeDoc` for an empty paragraph. -/
def emptyRun : TextNode := ⟨[], []⟩

/-- Loop of `normalizeDoc`'s run merging: `cur` is the last element of the
accumulator `merged`; a run with marks equal (as sorted sets) to `cur` is
concatenated onto it, otherwise `cur` is emitted. -/
def mergeRunsAux (cur : TextNode) : List TextNode → List TextNode
  | [] => [cur]
  | t :: rest =>
    if marksEqual cur.marks t.marks then mergeRunsAux ⟨cur.text ++ t.text, cur.marks⟩ rest
    else cur :: mergeRunsAux t rest

/-- Merge adjacent runs with set-equal marks (part of `normalizeDoc`). -/
def mergeRuns : List TextNode → List TextNode
  | [] => []
  | t :: rest => mergeRunsAux t rest

/-- Per-paragraph part of `normalizeDoc`: drop empty runs, refill an empty
paragraph with a single empty run, merge adjacent runs with equal marks. -/
def normalizePara (p : ParagraphNode) : ParagraphNode :=
  let filtered := p.children.filter (fun t => decide (0 < t.text.length))
  let filled := if filtered.isEmpty then [emptyRun] else filtered
  ⟨mergeRuns filled⟩

/-- Source `normalizeDoc`. -/
def normalizeDoc (doc : DocNode) : DocNode :=
  let paras := doc.children.map normalizePara
  ⟨if paras.isEmpty then [⟨[emptyRun]⟩] else paras⟩

/-- `Array.prototype.splice(i, 1, ...repl)` on a run list. -/
def spliceAt (l : List TextNode) (i : Nat) (repl : List TextNode) : List TextNode :=
  l.take i ++ repl ++ l.drop (i + 1)

/-- Source `insertText`: resolve `pos`; splice the text into the run when
the marks agree (as sorted sets), otherwise split the run into up to three
runs; normalize. The `none` branches model the JS crash on out-of-range
indices, which cannot occur when `resolvePosition` succeeds. -/
def insertText (doc : DocNode) (pos : Int) (text : List Char) (marks : List MarkType) : DocNode :=
  match resolvePosition doc pos with
  | none => doc
  | some r =>
    match doc.children[r.paraIndex]? with
    | none => doc
    | some para =>
      match para.children[r.textIndex]? with
      | none => doc
      | some textNode =>
        let newChildren :=
          if marksEqual textNode.marks marks then
            para.children.set r.textIndex
              ⟨jsSlice textNode.text 0 r.offset ++ text ++ jsSliceFrom textNode.text r.offset,
               textNode.marks⟩
          else
            let before : TextNode := ⟨jsSlice textNode.text 0 r.offset, textNode.marks⟩
            let inserted : TextNode := ⟨text, marks⟩
            let after : TextNode := ⟨jsSliceFrom textNode.text r.offset, textNode.marks⟩
            spliceAt para.children r.textIndex
              ((if before.text.isEmpty then [] else [before]) ++ [inserted] ++
               (if after.text.isEmpty then [] else [after]))
        normalizeDoc ⟨doc.children.set r.paraIndex ⟨newChildren⟩⟩

/-- Same-paragraph branch of `deleteText`: walk the runs of the paragraph
with `currentPos` starting at 0 and collect the text outside `[fromPos, toPos)`.
Note the source compares the paragraph-local `currentPos` against the
absolute offsets `fromPos`/`toPos`. -/
def deleteInRuns (fromPos toPos : Int) : List TextNode → Int → List Char
  | [], _ => []
  | t :: rest, currentPos =>
    let nodeStart := currentPos
    let nodeEnd := currentPos + (t.text.length : Int)
    (if nodeEnd ≤ fromPos || toPos ≤ nodeStart then t.text
     else
       jsSlice t.text 0 (max 0 (fromPos - nodeStart)) ++
       jsSliceFrom t.text (min (t.text.length : Int) (toPos - nodeStart))) ++
    deleteInRuns fromPos toPos rest nodeEnd

/-- Cross-paragraph branch of `deleteText`: surviving prefix of the start
paragraph (`currentPos` starts at 0 in the source). -/
def startTextOf (fromPos : Int) : List TextNode → Int → List Char
  | [], _ => []
  | t :: rest, currentPos =>
    let nodeEnd := currentPos + (t.text.length : Int)
    (if nodeEnd ≤ fromPos then t.text
     else if currentPos < fromPos then jsSlice t.text 0 (fromPos - currentPos)
     else []) ++
    startTextOf fromPos rest nodeEnd

/-- Cross-paragraph branch of `deleteText`: surviving suffix of the end
paragraph, walked with an absolute `currentPos`. -/
def endTextOf (toPos : Int) : List TextNode → Int → List Char
  | [], _ => []
  | t :: rest, currentPos =>
    let nodeStart := currentPos
    let nodeEnd := currentPos + (t.text.length : Int)
    (if toPos ≤ nodeStart then t.text
     else if toPos < nodeEnd then jsSliceFrom t.text (toPos - nodeStart)
     else []) ++
    endTextOf toPos rest nodeEnd

/-- Absolute offset of the start of paragraph `paraIdx` (the source's loop
summing the text lengths of all earlier paragraphs plus one separator each). -/
def paraStartOffset (doc : DocNode) (paraIdx : Nat) : Int :=
  ((doc.children.take paraIdx).foldl (fun acc p => acc + paraTextLength p + 1) 0 : Nat)

/-- Source `deleteText`. -/
def deleteText (doc : DocNode) (fromPos toPos : Int) : DocNode :=
  if fromPos == toPos then doc
  else
    match resolvePosition doc fromPos, resolvePosition doc toPos with
    | some fr, some tr =>
      if fr.paraIndex == tr.paraIndex then
        match doc.children[fr.paraIndex]? with
        | none => doc
        | some para =>
          let newText := deleteInRuns fromPos toPos para.children 0
          normalizeDoc ⟨doc.children.set fr.paraIndex ⟨[⟨newText, []⟩]⟩⟩
      else
        match doc.children[fr.paraIndex]?, doc.children[tr.paraIndex]? with
        | some startPara, some endPara =>
          let startText := startTextOf fromPos startPara.children 0
          let endText := endTextOf toPos endPara.children (paraStartOffset doc tr.paraIndex)
          let withMerge := doc.children.set fr.paraIndex ⟨[⟨startText ++ endText, []⟩]⟩
          let spliced :=
            withMerge.take (fr.paraIndex + 1) ++
            withMerge.drop (fr.paraIndex + 1 + (tr.paraIndex - fr.paraIndex))
          normalizeDoc ⟨spliced⟩
        | _, _ => doc
    | _, _ => doc

/-- Flattened text of a paragraph (the `fullText` loop of `splitParagraph`). -/
def paraFlatText (p : ParagraphNode) : List Char :=
  p.children.foldl (fun acc t => acc ++ t.text) []

/-- Source `splitParagraph`: resolve `pos`, flatten the paragraph's text,
split it at the resolved in-run offset, replace the paragraph by the first
half and insert the second half right after, both as single unmarked runs. -/
def splitParagraph (doc : DocNode) (pos : Int) : DocNode :=
  match resolvePosition doc pos with
  | none => doc
  | some r =>
    match doc.children[r.paraIndex]? with
    | none => doc
    | some para =>
      let fullText := paraFlatText para
      let beforeText := jsSlice fullText 0 r.offset
      let afterText := jsSliceFrom fullText r.offset
      let updated := doc.children.set r.paraIndex ⟨[⟨beforeText, []⟩]⟩
      normalizeDoc
        ⟨updated.take (r.paraIndex + 1) ++ [⟨[⟨afterText, []⟩]⟩] ++ updated.drop (r.paraIndex + 1)⟩

/-- Per-run body shared by `applyMarkToRange`: split the run at the overlap
with `[fromPos, toPos)` and change only the overlapping piece's marks. -/
def markRunPieces (fromPos toPos : Int) (f : List MarkType → List MarkType)
    (t : TextNode) (nodeStart : Int) : List TextNode :=
  let nodeEnd := nodeStart + (t.text.length : Int)
  if nodeEnd ≤ fromPos || toPos ≤ nodeStart then [t]
  else if fromPos ≤ nodeStart ∧ nodeEnd ≤ toPos then [⟨t.text, f t.marks⟩]
  else
    let overlapStart := max fromPos nodeStart
    let overlapEnd := min toPos nodeEnd
    let beforeEnd := overlapStart - nodeStart
    let afterStart := overlapEnd - nodeStart
    (if 0 < beforeEnd then [⟨jsSlice t.text 0 beforeEnd, t.marks⟩] else []) ++
    [⟨jsSlice t.text beforeEnd afterStart, f t.marks⟩] ++
    (if afterStart < (t.text.length : Int) then [⟨jsSliceFrom t.text afterStart, t.marks⟩] else [])

/-- Run loop shared by `applyMarkToRange` and `clearMarksInRange`: rebuild
the runs of one paragraph, threading `currentPos`, and return the final
`currentPos` as well. -/
def markRunsInPara (fromPos toPos : Int) (f : List MarkType → List MarkType) :
    List TextNode → Int → List TextNode × Int
  | [], currentPos => ([], currentPos)
  | t :: rest, currentPos =>
    let nodeEnd := currentPos + (t.text.length : Int)
    let pieces := markRunPieces fromPos toPos f t currentPos
    let next := markRunsInPara fromPos toPos f rest nodeEnd
    (pieces ++ next.1, next.2)

/-- Paragraph loop shared by `applyMarkToRange` and `clearMarksInRange`:
after each paragraph the separator is crossed (`currentPos += 1`). -/
def markParas (fromPos toPos : Int) (f : List MarkType → List MarkType) :
    List ParagraphNode → Int → List ParagraphNode
  | [], _ => []
  | p :: rest, currentPos =>
    let res := markRunsInPara fromPos toPos f p.children currentPos
    ⟨res.1⟩ :: markParas fromPos toPos f rest (res.2 + 1)

/-- Source `applyMarkToRange`: add or remove one mark on every sub-segment
of a run overlapping `[fromPos, toPos)`; normalize. No-op when the range is
collapsed. -/
def applyMarkToRange (doc : DocNode) (fromPos toPos : Int) (markType : MarkType)
    (add : Bool) : DocNode :=
  if fromPos == toPos then doc
  else
    normalizeDoc
      ⟨markParas fromPos toPos
        (fun ms => if add then addMark ms markType else removeMark ms markType)
        doc.children 0⟩

/-- Source `clearMarksInRange`: clear all marks on every sub-segment of a
run overlapping `[fromPos, toPos)`; normalize. No-op when the range is
collapsed. -/
def clearMarksInRange (doc : DocNode) (fromPos toPos : Int) : DocNode :=
  if fromPos == toPos then doc
  else normalizeDoc ⟨markParas fromPos toPos (fun _ => []) doc.children 0⟩

/-- Editor selection: anchor and head as absolute offsets. -/
structure EditorSelection where
  anchor : Int
  head : Int
deriving DecidableEq, Repr

/-- Editor state: document plus selection (the history snapshot unit). -/
structure EditorState where
  doc : DocNode
  selection : EditorSelection
deriving DecidableEq, Repr

/-- Two-stack undo/redo history over editor states. The top of each stack
is the last list element (JS `push`/`pop` operate at the array end). -/
structure HistoryState where
  undoStack : List EditorState
  redoStack : List EditorState
deriving DecidableEq, Repr

/-- Source `createHistoryState`. -/
def createHistoryState : HistoryState := ⟨[], []⟩

/-- Source `pushHistory`: append to the undo stack, clear the redo stack. -/
def pushHistory (history : HistoryState) (state : EditorState) : HistoryState :=
  ⟨history.undoStack ++ [state], []⟩

/-- Source `undo`: `null` on an empty undo stack, else pop the most recent
undo entry, push the current state onto the redo stack, and return the
popped entry. -/
def undo (history : HistoryState) (currentState : EditorState) :
    Option (HistoryState × EditorState) :=
  match history.undoStack.getLast? with
  | none => none
  | some previousState =>
    some (⟨history.undoStack.dropLast, history.redoStack ++ [currentState]⟩, previousState)

/-- Source `redo`: symmetric to `undo` over the redo stack. -/
def redo (history : HistoryState) (currentState : EditorState) :
    Option (HistoryState × EditorState) :=
  match history.redoStack.getLast? with
  | none => none
  | some nextState =>
    some (⟨history.undoStack ++ [currentState], history.redoStack.dropLast⟩, nextState)

/-- Source `canUndo`. -/
def canUndo (history : HistoryState) : Bool := decide (0 < history.undoStack.length)

/-- Source `canRedo`. -/
def canRedo (history : HistoryState) : Bool := decide (0 < history.redoStack.length)

/-- Inline style record carried by an element; the empty string is an unset
property, matching an untouched `el.style.x`. Only the properties the
renderer writes and the parser reads are modelled. -/
structure CssStyle where
  fontWeight : List Char
  fontStyle : List Char
  textDecoration : List Char
  fontFamily : List Char
  backgroundColor : List Char
  padding : List Char
  borderRadius : List Char
deriving DecidableEq, Repr

/-- Style record with every property unset. -/
def emptyStyle : CssStyle := ⟨[], [], [], [], [], [], []⟩

mutual
/-- DOM node: a text node or an element with a tag (uppercase `tagName`),
inline style and children. -/
inductive DomNode where
  | text (s : List Char)
  | element (tag : List Char) (style : CssStyle) (children : DomForest)
deriving DecidableEq, Repr

/-- List of sibling DOM nodes (mutual with `DomNode` so that structural
recursion over the tree is available). -/
inductive DomForest where
  | nil
  | cons (head : DomNode) (tail : DomForest)
deriving DecidableEq, Repr
end

/-- Append of DOM sibling lists. -/
def DomForest.append : DomForest → DomForest → DomForest
  | .nil, ys => ys
  | .cons x xs, ys => .cons x (DomForest.append xs ys)

/-- Non-breaking space written by the renderer for a run-final space. -/
def nbsp : Char := Char.ofNat 160

/-- Source `preserveWhitespace`: replace a single run-final space with a
non-breaking space (the regex matches one space at the end). -/
def preserveWhitespace (text : List Char) : List Char :=
  match text.getLast? with
  | some c => if c = ' ' then text.dropLast ++ [nbsp] else text
  | none => text

/-- Style writes performed by `renderTextNode`'s mark loop. -/
def applyMarkStyle (st : CssStyle) : MarkType → CssStyle
  | .bold => { st with fontWeight := "bold".toList }
  | .italic => { st with fontStyle := "italic".toList }
  | .underline => { st with textDecoration := "underline".toList }
  | .code =>
    { st with
      fontFamily := "monospace".toList
      backgroundColor := "#f0f0f0".toList
      padding := "0 4px".toList
      borderRadius := "3px".toList }

/-- Source `renderTextNode`: a bare text node for an unmarked run, else a
styled `span`. Setting `textContent` to the empty string creates no child. -/
def renderTextNode (t : TextNode) : DomNode :=
  let displayText := preserveWhitespace t.text
  if t.marks.isEmpty then .text displayText
  else
    .element "SPAN".toList (t.marks.foldl applyMarkStyle emptyStyle)
      (if displayText.isEmpty then .nil else .cons (.text displayText) .nil)

/-- Children of a rendered paragraph: a lone `br` when the paragraph is
empty, else one rendered node per run. -/
def renderParagraphChildren : List TextNode → DomForest
  | [] => .cons (.element "BR".toList emptyStyle .nil) .nil
  | [t] =>
    if t.text.isEmpty then .cons (.element "BR".toList emptyStyle .nil) .nil
    else .cons (renderTextNode t) .nil
  | t :: t2 :: rest =>
    .cons (renderTextNode t) (renderParagraphChildren (t2 :: rest))

/-- One rendered paragraph: a `p` element. -/
def renderParagraph (p : ParagraphNode) : DomNode :=
  .element "P".toList emptyStyle (renderParagraphChildren p.children)

/-- Source `renderDocToElement`: the editor root's children after a render,
one `p` per paragraph. -/
def renderDoc (doc : DocNode) : DomForest :=
  doc.children.foldr (fun p acc => .cons (renderParagraph p) acc) .nil

/-- Source `extractMarksFromElement`: marks inferred from tag identity or
inline style, pushed in the fixed order bold, italic, underline, code. -/
def extractMarksFromElement (tag : List Char) (style : CssStyle) : List MarkType :=
  (if style.fontWeight == "bold".toList || tag == "B".toList || tag == "STRONG".toList
   then [MarkType.bold] else []) ++
  (if style.fontStyle == "italic".toList || tag == "I".toList || tag == "EM".toList
   then [MarkType.italic] else []) ++
  (if style.textDecoration == "underline".toList || tag == "U".toList
   then [MarkType.underline] else []) ++
  (if style.fontFamily == "monospace".toList || tag == "CODE".toList
   then [MarkType.code] else [])

mutual
/-- Source `extractTextNodes`: depth-first walk accumulating inherited
marks; `br` elements are skipped; empty text nodes contribute nothing. -/
def extractTextNodes (node : DomNode) (inherited : List MarkType) : List TextNode :=
  match node with
  | .text s => if s.isEmpty then [] else [⟨s, inherited⟩]
  | .element tag style children =>
    if tag == "BR".toList then []
    else
      extractTextNodesList children
        ((extractMarksFromElement tag style).foldl
          (fun acc m => if acc.contains m then acc else acc ++ [m]) inherited)

/-- Walk over the children of an element. -/
def extractTextNodesList (nodes : DomForest) (inherited : List MarkType) : List TextNode :=
  match nodes with
  | .nil => []
  | .cons n rest => extractTextNodes n inherited ++ extractTextNodesList rest inherited
end

/-- Source `parseParagraph`: extract the runs of one block element (no
inherited marks at the top); an empty block yields one empty unmarked run. -/
def parseParagraph (paragraphChildren : DomForest) : ParagraphNode :=
  let textNodes := extractTextNodesList paragraphChildren []
  ⟨if textNodes.isEmpty then [emptyRun] else textNodes⟩

mutual
/-- `editor.querySelectorAll` with selector `p[data-para], p, div`: all
descendant elements with tag `P` or `DIV`, in document (pre-)order. -/
def collectBlocks : DomForest → List DomForest
  | .nil => []
  | .cons (.text _) rest => collectBlocks rest
  | .cons (.element tag _ children) rest =>
    (if tag == "P".toList || tag == "DIV".toList then [children] else []) ++
    collectBlocks children ++ collectBlocks rest
end

/-- `node.textContent` of a forest: all text, depth first. -/
def forestTextContent : DomForest → List Char
  | .nil => []
  | .cons (.text s) rest => s ++ forestTextContent rest
  | .cons (.element _ _ children) rest => forestTextContent children ++ forestTextContent rest

/-- Source `parseEditorDOM` applied to the editor root's children: when no
block element is found the whole text content becomes one paragraph, else
one parsed paragraph per block. (The `children.length === 0` refill after
the loop is unreachable because the block list is non-empty there.) -/
def parseEditorDOM (editorChildren : DomForest) : DocNode :=
  let blocks := collectBlocks editorChildren
  match blocks with
  | [] => ⟨[⟨[⟨forestTextContent editorChildren, []⟩]⟩]⟩
  | _ => ⟨blocks.map parseParagraph⟩

/-- Run-emptiness part of the structural invariant: no run has empty text
unless it is the sole run of its paragraph. -/
def runsOk (runs : List TextNode) : Bool :=
  match runs with
  | [_] => true
  | _ => runs.all (fun t => !t.text.isEmpty)

/-- No two adjacent runs have set-equal mark sets. -/
def noAdjacentEqualMarks : List TextNode → Bool
  | a :: b :: rest => !marksEqual a.marks b.marks && noAdjacentEqualMarks (b :: rest)
  | _ => true

/-- Structural invariant of one paragraph: at least one run, no empty run
unless sole, no adjacent set-equal mark sets. -/
def paraInvariant (p : ParagraphNode) : Bool :=
  !p.children.isEmpty && runsOk p.children && noAdjacentEqualMarks p.children

/-- Structural invariant of a document: at least one paragraph, and every
paragraph satisfies `paraInvariant`. -/
def docInvariant (d : DocNode) : Bool :=
  !d.children.isEmpty && d.children.all paraInvariant

/-- Strengthening of `paraInvariant` that characterizes the paragraphs
`normalizePara` produces: in addition, a sole empty run carries no marks. -/
def paraNormalized (p : ParagraphNode) : Bool :=
  paraInvariant p &&
  (match p.children with
   | [t] => !t.text.isEmpty || t.marks.isEmpty
   | _ => true)

/-- Characterization of the documents `normalizeDoc` produces. -/
def isNormalizedDoc (d : DocNode) : Bool :=
  !d.children.isEmpty && d.children.all paraNormalized

/-- The document has at least one paragraph and every paragraph at least
one run (the part of the invariant `resolvePosition` needs to not crash). -/
def docNonempty (d : DocNode) : Bool :=
  !d.children.isEmpty && d.children.all (fun p => !p.children.isEmpty)

/-- Total run text length of a document. -/
def docTextLength (d : DocNode) : Nat :=
  (d.children.map paraTextLength).sum

/-- Characters of one run, each paired with the run's mark list. -/
def runChars (t : TextNode) : List (Char × List MarkType) :=
  t.text.map (fun c => (c, t.marks))

/-- Characters of a run list in order. -/
def runsChars (l : List TextNode) : List (Char × List MarkType) :=
  (l.map runChars).foldr (· ++ ·) []

/-- Characters of one paragraph in order. -/
def paraChars (p : ParagraphNode) : List (Char × List MarkType) :=
  runsChars p.children

/-- Linear character sequence of a document: one entry per character
(`some`) and one `none` per paragraph separator, so that the list index of
an entry is exactly its absolute offset. -/
def docCharsAux : List ParagraphNode → List (Option (Char × List MarkType))
  | [] => []
  | [p] => (paraChars p).map some
  | p :: p2 :: rest => (paraChars p).map some ++ none :: docCharsAux (p2 :: rest)

/-- Linear character sequence of a document (see `docCharsAux`). -/
def docChars (d : DocNode) : List (Option (Char × List MarkType)) :=
  docCharsAux d.children

/-- Canonicalize one `docChars` entry by sorting its mark list. -/
def canonEntry : Option (Char × List MarkType) → Option (Char × List MarkType)
  | none => none
  | some (c, ms) => some (c, sortMarks ms)

/-- Canonicalize a `docChars` sequence. -/
def canonChars (l : List (Option (Char × List MarkType))) :
    List (Option (Char × List MarkType)) :=
  l.map canonEntry

/-- Apply an index-dependent function to each list element, the first
element receiving index `i`. -/
def applyIdx (f : Int → α → α) : Int → List α → List α
  | _, [] => []
  | i, x :: xs => f i x :: applyIdx f (i + 1) xs

/-- Character-level effect of one `applyMarkToRange`/`clearMarksInRange`
pass: entries at indices in `[fromPos, toPos)` get their mark list
transformed by `f`; separators and out-of-range entries are unchanged. -/
def markTransform (fromPos toPos : Int) (f : List MarkType → List MarkType) (i : Int) :
    Option (Char × List MarkType) → Option (Char × List MarkType)
  | none => none
  | some (c, ms) => some (c, if fromPos ≤ i ∧ i < toPos then f ms else ms)

/-- `markTransform` on a plain (non-separator) character entry. -/
def pairTransform (fromPos toPos : Int) (f : List MarkType → List MarkType) (i : Int)
    (e : Char × List MarkType) : Char × List MarkType :=
  (e.1, if fromPos ≤ i ∧ i < toPos then f e.2 else e.2)

/-- Canonicalize a character entry by sorting its mark list. -/
def canonPair (e : Char × List MarkType) : Char × List MarkType :=
  (e.1, sortMarks e.2)

/-- Run with its mark list sorted. -/
def canonRun (t : TextNode) : TextNode := ⟨t.text, sortMarks t.marks⟩

/-- Document with every run's mark list sorted (marks compared as sets). -/
def docCanon (d : DocNode) : DocNode :=
  ⟨d.children.map (fun p => ⟨p.children.map canonRun⟩)⟩

/-- A run survives the DOM round trip verbatim when its mark list has no
duplicates and its text does not end in a plain space (which the renderer
would turn into a non-breaking space). -/
def runRoundTripSafe (t : TextNode) : Bool :=
  decide t.marks.Nodup && !(t.text.getLast? == some ' ')

/-- Every run of the document is `runRoundTripSafe`. -/
def docRoundTripSafe (d : DocNode) : Bool :=
  d.children.all (fun p => p.children.all runRoundTripSafe)

/-! Concrete documents and states used by witnesses and counterexamples. -/

/-- One paragraph containing the single unmarked run "HelloWorld". -/
def helloWorldDoc : DocNode := ⟨[⟨[⟨"HelloWorld".toList, []⟩]⟩]⟩

/-- One paragraph with two runs of different marks: "ab" bold, then "cd". -/
def multiRunDoc : DocNode := ⟨[⟨[⟨"ab".toList, [.bold]⟩, ⟨"cd".toList, []⟩]⟩]⟩

/-- One paragraph with the single bold run "a". -/
def boldRunDoc : DocNode := ⟨[⟨[⟨"a".toList, [.bold]⟩]⟩]⟩

/-- Two paragraphs "abc" and "def", each a single unmarked run. -/
def twoParaDoc : DocNode := ⟨[⟨[⟨"abc".toList, []⟩]⟩, ⟨[⟨"def".toList, []⟩]⟩]⟩

/-- One paragraph with the single unmarked run "a". -/
def singleADoc : DocNode := ⟨[⟨[⟨"a".toList, []⟩]⟩]⟩

/-- One paragraph with the single unmarked run "a " (trailing space). -/
def spaceRunDoc : DocNode := ⟨[⟨[⟨"a ".toList, []⟩]⟩]⟩

/-- Editor state with collapsed selection at a given offset. -/
def stateAt (d : DocNode) (n : Int) : EditorState := ⟨d, ⟨n, n⟩⟩

/-- A normalized document with a marked run, an unmarked run and an empty
paragraph, used to witness the DOM round trip. -/
def roundTripDoc : DocNode :=
  ⟨[⟨[⟨"Hi".toList, [.italic, .bold]⟩, ⟨" there".toList, []⟩]⟩, ⟨[⟨[], []⟩]⟩]⟩

/-! Lemmas about mark sorting and mark-set equality. -/

theorem markKey_inj : ∀ a b : MarkType, markKey a = markKey b → a = b := by
  intro a b h
  cases a <;> cases b <;> first
    | rfl
    | exact absurd h (by decide)

instance : IsTotal MarkType (fun a b => markKey a ≤ markKey b) :=
  ⟨fun a b => Nat.le_total _ _⟩

instance : IsTrans MarkType (fun a b => markKey a ≤ markKey b) :=
  ⟨fun _ _ _ h1 h2 => le_trans h1 h2⟩

instance : IsAntisymm MarkType (fun a b => markKey a ≤ markKey b) :=
  ⟨fun a b h1 h2 => markKey_inj _ _ (le_antisymm h1 h2)⟩

theorem insertMark_eq_orderedInsert (m : MarkType) (l : List MarkType) :
    insertMark m l = List.orderedInsert (fun a b => markKey a ≤ markKey b) m l := by
  induction l with
  | nil => rfl
  | cons x xs ih => simp only [insertMark, List.orderedInsert, ih]

theorem sortMarks_eq_insertionSort (l : List MarkType) :
    sortMarks l = List.insertionSort (fun a b => markKey a ≤ markKey b) l := by
  induction l with
  | nil => rfl
  | cons x xs ih =>
    simp only [sortMarks, List.insertionSort, ih, insertMark_eq_orderedInsert]

theorem sortMarks_perm (l : List MarkType) : List.Perm (sortMarks l) l := by
  rw [sortMarks_eq_insertionSort]
  exact List.perm_insertionSort _ l

theorem sortMarks_sorted (l : List MarkType) :
    (sortMarks l).Sorted (fun a b => markKey a ≤ markKey b) := by
  rw [sortMarks_eq_insertionSort]
  exact List.sorted_insertionSort _ l

theorem sortMarks_eq_of_perm {a b : List MarkType} (h : List.Perm a b) :
    sortMarks a = sortMarks b :=
  List.eq_of_perm_of_sorted ((sortMarks_perm a).trans (h.trans (sortMarks_perm b).symm))
    (sortMarks_sorted a) (sortMarks_sorted b)

theorem sortMarks_idem (l : List MarkType) : sortMarks (sortMarks l) = sortMarks l :=
  sortMarks_eq_of_perm (sortMarks_perm l)

theorem sortMarks_length (l : List MarkType) : (sortMarks l).length = l.length :=
  (sortMarks_perm l).length_eq

theorem mem_sortMarks {m : MarkType} {l : List MarkType} : m ∈ sortMarks l ↔ m ∈ l :=
  (sortMarks_perm l).mem_iff

theorem marksEqual_true_iff {a b : List MarkType} :
    marksEqual a b = true ↔ sortMarks a = sortMarks b := by
  constructor
  · intro h
    simp only [marksEqual, Bool.and_eq_true, beq_iff_eq] at h
    exact h.2
  · intro h
    have hl : a.length = b.length := by
      rw [← sortMarks_length a, ← sortMarks_length b, h]
    simp only [marksEqual, Bool.and_eq_true, beq_iff_eq]
    exact ⟨hl, h⟩

theorem marksEqual_refl (a : List MarkType) : marksEqual a a = true :=
  marksEqual_true_iff.mpr rfl

theorem marksEqual_symm {a b : List MarkType} (h : marksEqual a b = true) :
    marksEqual b a = true :=
  marksEqual_true_iff.mpr (marksEqual_true_iff.mp h).symm

theorem hasMark_true_iff {ms : List MarkType} {t : MarkType} :
    hasMark ms t = true ↔ t ∈ ms := by
  simp only [hasMark, List.any_eq_true, beq_iff_eq]
  constructor
  · rintro ⟨x, hx, rfl⟩; exact hx
  · intro h; exact ⟨t, h, rfl⟩

theorem hasMark_false_iff {ms : List MarkType} {t : MarkType} :
    hasMark ms t = false ↔ t ∉ ms := by
  rw [← Bool.not_eq_true, not_iff_not]
  exact hasMark_true_iff

theorem hasMark_congr_perm {a b : List MarkType} (h : List.Perm a b) (t : MarkType) :
    hasMark a t = hasMark b t := by
  by_cases hm : t ∈ a
  · rw [hasMark_true_iff.mpr hm, hasMark_true_iff.mpr (h.mem_iff.mp hm)]
  · rw [hasMark_false_iff.mpr hm, hasMark_false_iff.mpr (fun hc => hm (h.mem_iff.mpr hc))]

theorem removeMark_perm {a b : List MarkType} (h : List.Perm a b) (t : MarkType) :
    List.Perm (removeMark a t) (removeMark b t) :=
  h.filter _

theorem addMark_perm {a b : List MarkType} (h : List.Perm a b) (t : MarkType) :
    List.Perm (addMark a t) (addMark b t) := by
  unfold addMark
  rw [hasMark_congr_perm h t]
  cases hb : hasMark b t
  · simp only [Bool.false_eq_true, if_false]
    exact h.append_right [t]
  · simp only [if_true]
    exact h

theorem removeMark_addMark {ms : List MarkType} {m : MarkType}
    (h : hasMark ms m = false) : removeMark (addMark ms m) m = ms := by
  have hmem : m ∉ ms := hasMark_false_iff.mp h
  have hadd : addMark ms m = ms ++ [m] := by
    unfold addMark
    rw [h]
    simp
  rw [hadd]
  simp only [removeMark, List.filter_append]
  have h1 : ms.filter (fun x => !(x == m)) = ms := by
    rw [List.filter_eq_self]
    intro a ha
    simp only [Bool.not_eq_eq_eq_not, Bool.not_true, beq_eq_false_iff_ne]
    exact fun hc => hmem (hc ▸ ha)
  have h2 : [m].filter (fun x => !(x == m)) = [] := by simp
  rw [h1, h2, List.append_nil]

theorem removeMark_of_not_mem {ms : List MarkType} {m : MarkType}
    (h : m ∉ ms) : removeMark ms m = ms := by
  simp only [removeMark]
  rw [List.filter_eq_self]
  intro a ha
  simp only [Bool.not_eq_eq_eq_not, Bool.not_true, beq_eq_false_iff_ne]
  exact fun hc => h (hc ▸ ha)

/-! Lemmas about `mergeRuns` and `normalizeDoc`. -/

theorem mergeRunsAux_head_marks :
    ∀ (l : List TextNode) (cur : TextNode),
      ∃ s rest2, mergeRunsAux cur l = TextNode.mk s cur.marks :: rest2 := by
  intro l
  induction l with
  | nil => intro cur; exact ⟨cur.text, [], rfl⟩
  | cons t rest ih =>
    intro cur
    by_cases hEq : marksEqual cur.marks t.marks = true
    · obtain ⟨s, rest2, hs⟩ := ih ⟨cur.text ++ t.text, cur.marks⟩
      exact ⟨s, rest2, by simp only [mergeRunsAux, hEq, if_true]; exact hs⟩
    · rw [Bool.not_eq_true] at hEq
      obtain ⟨s, rest2, hs⟩ := ih t
      refine ⟨cur.text, TextNode.mk s t.marks :: rest2, ?_⟩
      simp only [mergeRunsAux, hEq, Bool.false_eq_true, if_false, hs]

theorem noAdjacent_mergeRunsAux :
    ∀ (l : List TextNode) (cur : TextNode),
      noAdjacentEqualMarks (mergeRunsAux cur l) = true := by
  intro l
  induction l with
  | nil => intro cur; rfl
  | cons t rest ih =>
    intro cur
    by_cases hEq : marksEqual cur.marks t.marks = true
    · simp only [mergeRunsAux, hEq, if_true]
      exact ih ⟨cur.text ++ t.text, cur.marks⟩
    · rw [Bool.not_eq_true] at hEq
      simp only [mergeRunsAux, hEq, Bool.false_eq_true, if_false]
      obtain ⟨s, rest2, hs⟩ := mergeRunsAux_head_marks rest t
      rw [hs]
      simp only [noAdjacentEqualMarks, Bool.and_eq_true]
      refine ⟨by simpa using hEq, ?_⟩
      rw [← hs]
      exact ih t

theorem mergeRunsAux_all_ne_nil :
    ∀ (l : List TextNode) (cur : TextNode), cur.text ≠ [] → (∀ t ∈ l, t.text ≠ []) →
      ∀ u ∈ mergeRunsAux cur l, u.text ≠ [] := by
  intro l
  induction l with
  | nil =>
    intro cur hc _ u hu
    simp only [mergeRunsAux, List.mem_singleton] at hu
    exact hu ▸ hc
  | cons t rest ih =>
    intro cur hc hl u hu
    by_cases hEq : marksEqual cur.marks t.marks = true
    · simp only [mergeRunsAux, hEq, if_true] at hu
      refine ih ⟨cur.text ++ t.text, cur.marks⟩ ?_ (fun v hv => hl v (List.mem_cons_of_mem _ hv)) u hu
      simp only [ne_eq, List.append_eq_nil]
      exact fun hb => hc hb.1
    · rw [Bool.not_eq_true] at hEq
      simp only [mergeRunsAux, hEq, Bool.false_eq_true, if_false, List.mem_cons] at hu
      rcases hu with rfl | hu
      · exact hc
      · exact ih t (hl t (List.mem_cons_self t rest)) (fun v hv => hl v (List.mem_cons_of_mem _ hv)) u hu

theorem mergeRunsAux_of_noAdjacent :
    ∀ (l : List TextNode) (cur : TextNode), noAdjacentEqualMarks (cur :: l) = true →
      mergeRunsAux cur l = cur :: l := by
  intro l
  induction l with
  | nil => intro cur _; rfl
  | cons t rest ih =>
    intro cur h
    simp only [noAdjacentEqualMarks, Bool.and_eq_true, Bool.not_eq_true'] at h
    simp only [mergeRunsAux, h.1, Bool.false_eq_true, if_false]
    rw [ih t h.2]

theorem mergeRunsAux_ne_nil (l : List TextNode) (cur : TextNode) :
    mergeRunsAux cur l ≠ [] := by
  obtain ⟨s, rest2, hs⟩ := mergeRunsAux_head_marks l cur
  rw [hs]
  exact List.cons_ne_nil _ _

theorem runsOk_of_all_ne (l : List TextNode) (h : ∀ t ∈ l, t.text ≠ []) :
    runsOk l = true := by
  unfold runsOk
  have hall : l.all (fun t => !t.text.isEmpty) = true := by
    rw [List.all_eq_true]
    intro t ht
    simpa [List.isEmpty_iff] using h t ht
  rcases l with _ | ⟨a, _ | ⟨b, rest⟩⟩ <;> simp_all

theorem paraNormalized_normalizePara (p : ParagraphNode) :
    paraNormalized (normalizePara p) = true := by
  rcases hfl : p.children.filter (fun t => decide (0 < t.text.length)) with _ | ⟨f, fs⟩
  · have hnp : normalizePara p = ⟨[emptyRun]⟩ := by
      simp only [normalizePara, hfl]
      rfl
    rw [hnp]
    decide
  · have hnp : normalizePara p = ⟨mergeRunsAux f fs⟩ := by
      simp only [normalizePara, hfl]
      rfl
    have hne : ∀ t ∈ f :: fs, t.text ≠ [] := by
      intro t ht
      rw [← hfl] at ht
      have := List.of_mem_filter ht
      simp only [decide_eq_true_eq] at this
      exact List.ne_nil_of_length_pos this
    have hnonnil : ∀ u ∈ mergeRunsAux f fs, u.text ≠ [] :=
      mergeRunsAux_all_ne_nil fs f (hne f (List.mem_cons_self _ _))
        (fun v hv => hne v (List.mem_cons_of_mem _ hv))
    rw [hnp]
    simp only [paraNormalized, paraInvariant, Bool.and_eq_true]
    refine ⟨⟨⟨?_, ?_⟩, ?_⟩, ?_⟩
    · simpa [List.isEmpty_iff] using mergeRunsAux_ne_nil fs f
    · exact runsOk_of_all_ne _ hnonnil
    · exact noAdjacent_mergeRunsAux fs f
    · rcases hm : mergeRunsAux f fs with _ | ⟨a, _ | ⟨b, rest⟩⟩
      · rfl
      · have := hnonnil a (by rw [hm]; exact List.mem_cons_self _ _)
        simp only [Bool.or_eq_true, Bool.not_eq_true']
        left
        simpa [List.isEmpty_iff] using this
      · rfl

theorem isNormalizedDoc_normalizeDoc (d : DocNode) :
    isNormalizedDoc (normalizeDoc d) = true := by
  unfold normalizeDoc
  by_cases he : (d.children.map normalizePara).isEmpty = true
  · simp only [he, if_true]
    decide
  · simp only [he, Bool.false_eq_true, if_false, isNormalizedDoc, Bool.and_eq_true]
    refine ⟨by simpa using he, ?_⟩
    rw [List.all_eq_true]
    intro p hp
    obtain ⟨q, _, rfl⟩ := List.mem_map.mp hp
    exact paraNormalized_normalizePara q

theorem docInvariant_of_isNormalizedDoc {d : DocNode} (h : isNormalizedDoc d = true) :
    docInvariant d = true := by
  simp only [isNormalizedDoc, Bool.and_eq_true, List.all_eq_true] at h
  simp only [docInvariant, Bool.and_eq_true, List.all_eq_true]
  refine ⟨h.1, fun p hp => ?_⟩
  have := h.2 p hp
  simp only [paraNormalized, Bool.and_eq_true] at this
  exact this.1

theorem docInvariant_normalizeDoc (d : DocNode) : docInvariant (normalizeDoc d) = true :=
  docInvariant_of_isNormalizedDoc (isNormalizedDoc_normalizeDoc d)

theorem normalizePara_of_paraNormalized {p : ParagraphNode}
    (h : paraNormalized p = true) : normalizePara p = p := by
  simp only [paraNormalized, paraInvariant, Bool.and_eq_true] at h
  obtain ⟨⟨⟨hne, hok⟩, hadj⟩, hsole⟩ := h
  rcases hc : p.children with _ | ⟨a, rest⟩
  · rw [hc] at hne; simp at hne
  · by_cases hall : ∀ t ∈ p.children, t.text ≠ []
    · have hfl : p.children.filter (fun t => decide (0 < t.text.length)) = p.children := by
        rw [List.filter_eq_self]
        intro t ht
        simpa [List.length_pos] using hall t ht
      unfold normalizePara
      rw [hfl, hc]
      simp only [List.isEmpty_cons, Bool.false_eq_true, if_false]
      have : mergeRuns (a :: rest) = mergeRunsAux a rest := rfl
      rw [this, mergeRunsAux_of_noAdjacent rest a (hc ▸ hadj)]
      cases p
      simp only at hc
      rw [hc]
    · push_neg at hall
      obtain ⟨t, ht, htext⟩ := hall
      rw [hc] at ht hok hsole
      unfold runsOk at hok
      rcases rest with _ | ⟨b, rest2⟩
      · have hta : t = a := by simpa using ht
        subst hta
        have hsole2 : (!t.text.isEmpty || t.marks.isEmpty) = true := hsole
        rw [htext] at hsole2
        simp only [List.isEmpty_nil, Bool.not_true, Bool.false_or] at hsole2
        have hmarks : t.marks = [] := by simpa [List.isEmpty_iff] using hsole2
        have hteq : t = emptyRun := by
          cases t
          simp only at htext hmarks
          rw [htext, hmarks]
          rfl
        have hfl : p.children.filter (fun u => decide (0 < u.text.length)) = [] := by
          rw [hc, hteq]
          rfl
        have hnp : normalizePara p = ⟨[emptyRun]⟩ := by
          simp only [normalizePara, hfl]
          rfl
        rw [hnp]
        cases p
        simp only at hc
        rw [hc, hteq]
      · exfalso
        simp only [List.all_eq_true] at hok
        have := hok t ht
        simp [htext, List.isEmpty_iff] at this

theorem normalizeDoc_of_isNormalized {d : DocNode}
    (h : isNormalizedDoc d = true) : normalizeDoc d = d := by
  simp only [isNormalizedDoc, Bool.and_eq_true, List.all_eq_true] at h
  have hmap : d.children.map normalizePara = d.children := by
    conv_rhs => rw [← List.map_id d.children]
    exact List.map_congr_left (fun p hp => normalizePara_of_paraNormalized (h.2 p hp))
  have hne : d.children.isEmpty = false := by simpa using h.1
  simp only [normalizeDoc, hmap, hne, Bool.false_eq_true, if_false]

/-- C7: `normalizeDoc` is idempotent: normalizing twice equals normalizing
once, for every document. -/
theorem normalizeDoc_idem (d : DocNode) :
    normalizeDoc (normalizeDoc d) = normalizeDoc d :=
  normalizeDoc_of_isNormalized (isNormalizedDoc_normalizeDoc d)

/-! Every edit operation either returns its input or ends in `normalizeDoc`. -/

theorem insertText_eq_self_or_normalize (doc : DocNode) (pos : Int)
    (text : List Char) (marks : List MarkType) :
    insertText doc pos text marks = doc ∨
      ∃ x, insertText doc pos text marks = normalizeDoc x := by
  unfold insertText
  repeat' split
  all_goals first
    | exact Or.inl rfl
    | exact Or.inr ⟨_, rfl⟩

theorem deleteText_eq_self_or_normalize (doc : DocNode) (fromPos toPos : Int) :
    deleteText doc fromPos toPos = doc ∨
      ∃ x, deleteText doc fromPos toPos = normalizeDoc x := by
  unfold deleteText
  repeat' split
  all_goals first
    | exact Or.inl rfl
    | exact Or.inr ⟨_, rfl⟩

theorem splitParagraph_eq_self_or_normalize (doc : DocNode) (pos : Int) :
    splitParagraph doc pos = doc ∨
      ∃ x, splitParagraph doc pos = normalizeDoc x := by
  unfold splitParagraph
  repeat' split
  all_goals first
    | exact Or.inl rfl
    | exact Or.inr ⟨_, rfl⟩

theorem applyMarkToRange_eq_self_or_normalize (doc : DocNode) (fromPos toPos : Int)
    (mt : MarkType) (add : Bool) :
    applyMarkToRange doc fromPos toPos mt add = doc ∨
      ∃ x, applyMarkToRange doc fromPos toPos mt add = normalizeDoc x := by
  unfold applyMarkToRange
  repeat' split
  all_goals first
    | exact Or.inl rfl
    | exact Or.inr ⟨_, rfl⟩

theorem clearMarksInRange_eq_self_or_normalize (doc : DocNode) (fromPos toPos : Int) :
    clearMarksInRange doc fromPos toPos = doc ∨
      ∃ x, clearMarksInRange doc fromPos toPos = normalizeDoc x := by
  unfold clearMarksInRange
  repeat' split
  all_goals first
    | exact Or.inl rfl
    | exact Or.inr ⟨_, rfl⟩

theorem docInvariant_of_cases {d e : DocNode} (hd : docInvariant d = true)
    (h : e = d ∨ ∃ x, e = normalizeDoc x) : docInvariant e = true := by
  rcases h with rfl | ⟨x, rfl⟩
  · exact hd
  · exact docInvariant_normalizeDoc x

/-- C5: on a document satisfying the structural invariant, every edit
operation (`insertText`, `deleteText`, `splitParagraph`, `applyMarkToRange`,
`clearMarksInRange`, `normalizeDoc`) returns a document that satisfies the
structural invariant again: at least one paragraph, every paragraph at
least one run, no two adjacent runs with set-equal marks, and no empty run
unless it is the sole run of its (empty) paragraph. -/
theorem editOps_preserve_docInvariant (d : DocNode) (hd : docInvariant d = true)
    (pos fromPos toPos : Int) (s : List Char) (ms : List MarkType)
    (mt : MarkType) (add : Bool) :
    docInvariant (insertText d pos s ms) = true ∧
    docInvariant (deleteText d fromPos toPos) = true ∧
    docInvariant (splitParagraph d pos) = true ∧
    docInvariant (applyMarkToRange d fromPos toPos mt add) = true ∧
    docInvariant (clearMarksInRange d fromPos toPos) = true ∧
    docInvariant (normalizeDoc d) = true :=
  ⟨docInvariant_of_cases hd (insertText_eq_self_or_normalize d pos s ms),
   docInvariant_of_cases hd (deleteText_eq_self_or_normalize d fromPos toPos),
   docInvariant_of_cases hd (splitParagraph_eq_self_or_normalize d pos),
   docInvariant_of_cases hd (applyMarkToRange_eq_self_or_normalize d fromPos toPos mt add),
   docInvariant_of_cases hd (clearMarksInRange_eq_self_or_normalize d fromPos toPos),
   docInvariant_normalizeDoc d⟩

/-- C9: `undo` returns `none` exactly when the undo stack is empty, and
otherwise pops the most recent undo entry (the last element), pushes the
current state onto the redo stack and returns the popped entry; `redo` is
symmetric over the redo stack. Totality (neither raises an error) is
inherent in the functions being total Lean definitions. -/
theorem undo_redo_spec (h : HistoryState) (c : EditorState) :
    (undo h c = none ↔ h.undoStack = []) ∧
    (∀ rest s, h.undoStack = rest ++ [s] →
      undo h c = some (⟨rest, h.redoStack ++ [c]⟩, s)) ∧
    (redo h c = none ↔ h.redoStack = []) ∧
    (∀ rest s, h.redoStack = rest ++ [s] →
      redo h c = some (⟨h.undoStack ++ [c], rest⟩, s)) := by
  refine ⟨⟨?_, ?_⟩, ?_, ⟨?_, ?_⟩, ?_⟩
  · intro hn
    unfold undo at hn
    cases hg : h.undoStack.getLast? with
    | none => exact List.getLast?_eq_none_iff.mp hg
    | some x => rw [hg] at hn; simp at hn
  · intro he
    unfold undo
    rw [he]
    rfl
  · intro rest s hrs
    unfold undo
    rw [hrs, List.getLast?_concat]
    simp only [Option.some.injEq]
    rw [List.dropLast_concat]
  · intro hn
    unfold redo at hn
    cases hg : h.redoStack.getLast? with
    | none => exact List.getLast?_eq_none_iff.mp hg
    | some x => rw [hg] at hn; simp at hn
  · intro he
    unfold redo
    rw [he]
    rfl
  · intro rest s hrs
    unfold redo
    rw [hrs, List.getLast?_concat]
    simp only [Option.some.injEq]
    rw [List.dropLast_concat]

/-- Witness for C9 at concrete histories and states: a pop from each
non-empty stack, and `none` at the empty stacks. -/
theorem undo_redo_spec_witness :
    undo ⟨[stateAt singleADoc 0], [stateAt singleADoc 1]⟩ (stateAt singleADoc 2) =
      some (⟨[], [stateAt singleADoc 1, stateAt singleADoc 2]⟩, stateAt singleADoc 0) ∧
    redo ⟨[stateAt singleADoc 0], [stateAt singleADoc 1]⟩ (stateAt singleADoc 2) =
      some (⟨[stateAt singleADoc 0, stateAt singleADoc 2], []⟩, stateAt singleADoc 1) ∧
    undo ⟨[], []⟩ (stateAt singleADoc 2) = none ∧
    redo ⟨[], []⟩ (stateAt singleADoc 2) = none := by
  refine ⟨?_, ?_, ?_, ?_⟩
  · exact (undo_redo_spec ⟨[stateAt singleADoc 0], [stateAt singleADoc 1]⟩
      (stateAt singleADoc 2)).2.1 [] (stateAt singleADoc 0) rfl
  · exact (undo_redo_spec ⟨[stateAt singleADoc 0], [stateAt singleADoc 1]⟩
      (stateAt singleADoc 2)).2.2.2 [] (stateAt singleADoc 1) rfl
  · exact (undo_redo_spec ⟨[], []⟩ (stateAt singleADoc 2)).1.mpr rfl
  · exact (undo_redo_spec ⟨[], []⟩ (stateAt singleADoc 2)).2.2.1.mpr rfl

/-! Length accounting: `getDocLength` as a sum, and preservation by
`normalizeDoc`. -/

theorem foldl_add_text_length :
    ∀ (l : List TextNode) (a : Nat),
      l.foldl (fun acc t => acc + t.text.length) a =
        a + (l.map (fun t => t.text.length)).sum := by
  intro l
  induction l with
  | nil => intro a; simp
  | cons t rest ih => intro a; simp [ih]; omega

theorem paraTextLength_eq_sum (p : ParagraphNode) :
    paraTextLength p = (p.children.map (fun t => t.text.length)).sum := by
  unfold paraTextLength
  rw [foldl_add_text_length]
  exact Nat.zero_add _

theorem foldl_add_para :
    ∀ (l : List ParagraphNode) (a : Nat),
      l.foldl (fun acc p => acc + paraTextLength p + 1) a =
        a + (l.map paraTextLength).sum + l.length := by
  intro l
  induction l with
  | nil => intro a; simp
  | cons p rest ih => intro a; simp [ih]; omega

theorem getDocLength_eq (d : DocNode) :
    getDocLength d = docTextLength d + d.children.length - 1 := by
  unfold getDocLength docTextLength
  rw [foldl_add_para]
  omega

theorem foldl_append_length :
    ∀ (l : List TextNode) (a : List Char),
      (l.foldl (fun acc t => acc ++ t.text) a).length =
        a.length + (l.map (fun t => t.text.length)).sum := by
  intro l
  induction l with
  | nil => intro a; simp
  | cons t rest ih => intro a; simp [ih]; omega

theorem paraFlatText_length (p : ParagraphNode) :
    (paraFlatText p).length = paraTextLength p := by
  unfold paraFlatText
  rw [foldl_append_length, paraTextLength_eq_sum]
  simp

theorem natSum_set :
    ∀ (l : List Nat) (i : Nat) (x y : Nat), l[i]? = some y →
      (l.set i x).sum + y = l.sum + x := by
  intro l
  induction l with
  | nil => intro i x y h; simp at h
  | cons a as ih =>
    intro i x y h
    cases i with
    | zero =>
      simp only [List.getElem?_cons_zero, Option.some.injEq] at h
      subst h
      simp [List.set]
      omega
    | succ i =>
      simp only [List.getElem?_cons_succ] at h
      have := ih i x y h
      simp [List.set]
      omega

theorem natSum_take_drop :
    ∀ (l : List Nat) (i y : Nat), l[i]? = some y →
      (l.take i).sum + y + (l.drop (i + 1)).sum = l.sum := by
  intro l
  induction l with
  | nil => intro i y h; simp at h
  | cons a as ih =>
    intro i y h
    cases i with
    | zero =>
      simp only [List.getElem?_cons_zero, Option.some.injEq] at h
      subst h
      simp
    | succ i =>
      simp only [List.getElem?_cons_succ] at h
      have := ih i y h
      simp only [List.take_succ_cons, List.drop_succ_cons, List.sum_cons]
      omega

theorem mergeRunsAux_text_sum :
    ∀ (l : List TextNode) (cur : TextNode),
      ((mergeRunsAux cur l).map (fun t => t.text.length)).sum =
        cur.text.length + (l.map (fun t => t.text.length)).sum := by
  intro l
  induction l with
  | nil => intro cur; simp [mergeRunsAux]
  | cons t rest ih =>
    intro cur
    by_cases hEq : marksEqual cur.marks t.marks = true
    · simp only [mergeRunsAux, hEq, if_true]
      rw [ih ⟨cur.text ++ t.text, cur.marks⟩]
      simp only [List.length_append, List.map_cons, List.sum_cons]
      try omega
    · rw [Bool.not_eq_true] at hEq
      simp only [mergeRunsAux, hEq, Bool.false_eq_true, if_false, List.map_cons, List.sum_cons]
      rw [ih t]

theorem filter_text_sum :
    ∀ (l : List TextNode),
      ((l.filter (fun t => decide (0 < t.text.length))).map (fun t => t.text.length)).sum =
        (l.map (fun t => t.text.length)).sum := by
  intro l
  induction l with
  | nil => rfl
  | cons t rest ih =>
    by_cases hp : 0 < t.text.length
    · rw [List.filter_cons_of_pos (by simpa using hp)]
      simp only [List.map_cons, List.sum_cons, ih]
    · rw [List.filter_cons_of_neg (by simpa using hp)]
      have hz : t.text.length = 0 := by omega
      simp only [List.map_cons, List.sum_cons, ih, hz]
      omega

theorem paraTextLength_normalizePara (p : ParagraphNode) :
    paraTextLength (normalizePara p) = paraTextLength p := by
  rcases hfl : p.children.filter (fun t => decide (0 < t.text.length)) with _ | ⟨f, fs⟩
  · have hnp : normalizePara p = ⟨[emptyRun]⟩ := by
      simp only [normalizePara, hfl]
      rfl
    rw [hnp, paraTextLength_eq_sum, paraTextLength_eq_sum]
    have hfs := filter_text_sum p.children
    rw [hfl] at hfs
    simp only [List.map_nil, List.sum_nil] at hfs
    show (([emptyRun] : List TextNode).map (fun t => t.text.length)).sum =
      (p.children.map (fun t => t.text.length)).sum
    rw [← hfs]
    rfl
  · have hnp : normalizePara p = ⟨mergeRunsAux f fs⟩ := by
      simp only [normalizePara, hfl]
      rfl
    rw [hnp, paraTextLength_eq_sum, paraTextLength_eq_sum]
    have hms : ((mergeRunsAux f fs).map (fun t => t.text.length)).sum =
        f.text.length + (fs.map (fun t => t.text.length)).sum := mergeRunsAux_text_sum fs f
    have hfs := filter_text_sum p.children
    rw [hfl] at hfs
    simp only [List.map_cons, List.sum_cons] at hfs
    show ((mergeRunsAux f fs).map (fun t => t.text.length)).sum =
      (p.children.map (fun t => t.text.length)).sum
    rw [hms]
    exact hfs

theorem docTextLength_normalizeDoc (d : DocNode) :
    docTextLength (normalizeDoc d) = docTextLength d := by
  rcases hc : d.children with _ | ⟨p, rest⟩
  · have : normalizeDoc d = ⟨[⟨[emptyRun]⟩]⟩ := by
      simp only [normalizeDoc, hc]
      rfl
    rw [this]
    unfold docTextLength
    rw [hc]
    rfl
  · have : normalizeDoc d = ⟨(p :: rest).map normalizePara⟩ := by
      simp only [normalizeDoc, hc]
      rfl
    rw [this]
    unfold docTextLength
    rw [hc, List.map_map]
    congr 1
    exact List.map_congr_left (fun q _ => paraTextLength_normalizePara q)

theorem normalizeDoc_children_length (d : DocNode) (h : d.children ≠ []) :
    (normalizeDoc d).children.length = d.children.length := by
  have : normalizeDoc d = ⟨d.children.map normalizePara⟩ := by
    simp only [normalizeDoc]
    rw [if_neg]
    simp [List.isEmpty_iff, h]
  rw [this]
  simp

theorem getDocLength_normalizeDoc (d : DocNode) :
    getDocLength (normalizeDoc d) = getDocLength d := by
  rcases hc : d.children with _ | ⟨p, rest⟩
  · have : normalizeDoc d = ⟨[⟨[emptyRun]⟩]⟩ := by
      simp only [normalizeDoc, hc]
      rfl
    rw [this]
    have hd0 : getDocLength d = 0 := by
      rw [getDocLength_eq]
      unfold docTextLength
      rw [hc]
      rfl
    rw [hd0]
    rfl
  · rw [getDocLength_eq, getDocLength_eq, docTextLength_normalizeDoc,
      normalizeDoc_children_length d (by rw [hc]; exact List.cons_ne_nil _ _)]

/-! JS slice decomposition lemmas. -/

theorem jsSlice_zero_append (s : List Char) (off : Int) :
    jsSlice s 0 off ++ jsSliceFrom s off = s := by
  unfold jsSliceFrom jsSlice
  have h0 : jsClamp s.length 0 = 0 := by
    unfold jsClamp
    rw [if_neg (by omega)]
    simp
  have hlen : jsClamp s.length (s.length : Int) = s.length := by
    unfold jsClamp
    rw [if_neg (by omega)]
    simp
  rw [h0, hlen, List.drop_zero, List.take_length]
  exact List.take_append_drop _ s

theorem length_jsSlice_split (s : List Char) (off : Int) :
    (jsSlice s 0 off).length + (jsSliceFrom s off).length = s.length := by
  have := congrArg List.length (jsSlice_zero_append s off)
  simpa using this

theorem jsClamp_of_bounds (s : List Char) (off : Int) (h0 : 0 ≤ off)
    (hle : off ≤ (s.length : Int)) : jsClamp s.length off = off.toNat := by
  unfold jsClamp
  rw [if_neg (by omega)]
  rw [min_eq_left hle]

theorem jsSlice_zero_eq_take (s : List Char) (off : Int) (h0 : 0 ≤ off)
    (hle : off ≤ (s.length : Int)) : jsSlice s 0 off = s.take off.toNat := by
  unfold jsSlice
  have hz : jsClamp s.length 0 = 0 := by
    unfold jsClamp
    rw [if_neg (by omega)]
    simp
  rw [hz, jsClamp_of_bounds s off h0 hle, List.drop_zero]

theorem jsSliceFrom_eq_drop (s : List Char) (off : Int) (h0 : 0 ≤ off)
    (hle : off ≤ (s.length : Int)) : jsSliceFrom s off = s.drop off.toNat := by
  unfold jsSliceFrom jsSlice
  have hlen : jsClamp s.length (s.length : Int) = s.length := by
    unfold jsClamp
    rw [if_neg (by omega)]
    simp
  rw [hlen, jsClamp_of_bounds s off h0 hle, List.take_length]

/-! Soundness of `resolvePosition`. -/

theorem mem_of_getLast?_eq {α : Type} {l : List α} {x : α} (h : l.getLast? = some x) :
    x ∈ l := by
  rw [List.getLast?_eq_getElem?] at h
  obtain ⟨hlt, hg⟩ := List.getElem?_eq_some.mp h
  exact hg ▸ List.getElem_mem _

theorem docNonempty_of_docInvariant {d : DocNode} (h : docInvariant d = true) :
    docNonempty d = true := by
  simp only [docInvariant, Bool.and_eq_true, List.all_eq_true] at h
  simp only [docNonempty, Bool.and_eq_true, List.all_eq_true]
  refine ⟨h.1, fun p hp => ?_⟩
  have := h.2 p hp
  simp only [paraInvariant, Bool.and_eq_true] at this
  exact this.1.1

theorem scanRuns_found {pos : Int} :
    ∀ (runs : List TextNode) (cp : Int) (idx ti : Nat) (off : Int),
      scanRuns pos runs cp idx = .found ti off →
      ∃ j run, runs[j]? = some run ∧ ti = idx + j ∧ off ≤ (run.text.length : Int) ∧
        (cp ≤ pos → 0 ≤ off) := by
  intro runs
  induction runs with
  | nil => intro cp idx ti off h; exact absurd h (by simp [scanRuns])
  | cons t rest ih =>
    intro cp idx ti off h
    by_cases hc : pos ≤ cp + (t.text.length : Int)
    · simp only [scanRuns, if_pos hc, RunScan.found.injEq] at h
      obtain ⟨rfl, rfl⟩ := h
      exact ⟨0, t, by simp, (Nat.add_zero idx).symm, by omega, fun hle => by omega⟩
    · simp only [scanRuns, if_neg hc] at h
      obtain ⟨j, run, hrun, hti, hoff, hpos⟩ := ih (cp + (t.text.length : Int)) (idx + 1) ti off h
      refine ⟨j + 1, run, by simpa using hrun, by omega, hoff, fun _ => hpos (by omega)⟩

theorem scanParas_sound {pos : Int} :
    ∀ (paras : List ParagraphNode) (cp : Int) (idx : Nat),
      (∀ p ∈ paras, p.children ≠ []) → cp ≤ pos →
      (scanParas pos paras cp idx ≠ .crash) ∧
      (∀ r, scanParas pos paras cp idx = .found r →
        ∃ j para run, paras[j]? = some para ∧ r.paraIndex = idx + j ∧
          para.children[r.textIndex]? = some run ∧
          0 ≤ r.offset ∧ r.offset ≤ (run.text.length : Int)) := by
  intro paras
  induction paras with
  | nil =>
    intro cp idx hne hcp
    exact ⟨by simp [scanParas], fun r hr => absurd hr (by simp [scanParas])⟩
  | cons p rest ih =>
    intro cp idx hne hcp
    have hpne : p.children ≠ [] := hne p (List.mem_cons_self _ _)
    cases hsc : scanRuns pos p.children cp 0 with
    | found ti off =>
      have hmain : scanParas pos (p :: rest) cp idx = .found ⟨idx, ti, off⟩ := by
        simp only [scanParas, hsc]
      obtain ⟨j, run, hrun, hti, hoff, hpos⟩ := scanRuns_found p.children cp 0 ti off hsc
      refine ⟨by rw [hmain]; simp, fun r hr => ?_⟩
      rw [hmain] at hr
      cases hr
      refine ⟨0, p, run, by simp, by simp, ?_, hpos hcp, hoff⟩
      subst hti
      simpa using hrun
    | past cp2 =>
      by_cases hlt : pos < cp2 + 1
      · obtain ⟨lastRun, hlr⟩ : ∃ u, p.children.getLast? = some u := by
          cases hgl : p.children.getLast? with
          | none => exact absurd (List.getLast?_eq_none_iff.mp hgl) hpne
          | some u => exact ⟨u, rfl⟩
        have hmain : scanParas pos (p :: rest) cp idx =
            .found ⟨idx, p.children.length - 1, (lastRun.text.length : Int)⟩ := by
          simp only [scanParas, hsc, if_pos hlt, hlr]
        refine ⟨by rw [hmain]; simp, fun r hr => ?_⟩
        rw [hmain] at hr
        cases hr
        refine ⟨0, p, lastRun, by simp, by simp, ?_, Int.natCast_nonneg _, le_refl _⟩
        rw [← List.getLast?_eq_getElem?]
        exact hlr
      · have hle2 : cp2 + 1 ≤ pos := by omega
        have hmain : scanParas pos (p :: rest) cp idx = scanParas pos rest (cp2 + 1) (idx + 1) := by
          simp only [scanParas, hsc, if_neg hlt]
        obtain ⟨ihc, ihf⟩ := ih (cp2 + 1) (idx + 1)
          (fun q hq => hne q (List.mem_cons_of_mem _ hq)) hle2
        refine ⟨by rw [hmain]; exact ihc, fun r hr => ?_⟩
        rw [hmain] at hr
        obtain ⟨j, para, run, hp, hpi, hrun, h0, hle⟩ := ihf r hr
        exact ⟨j + 1, para, run, by simpa using hp, by omega, hrun, h0, hle⟩

theorem resolvePosition_some_valid (d : DocNode) (pos : Int)
    (hd : docNonempty d = true) (hpos : 0 ≤ pos) :
    ∃ r para run, resolvePosition d pos = some r ∧
      d.children[r.paraIndex]? = some para ∧
      para.children[r.textIndex]? = some run ∧
      0 ≤ r.offset ∧ r.offset ≤ (run.text.length : Int) := by
  simp only [docNonempty, Bool.and_eq_true, List.all_eq_true] at hd
  have hne : ∀ p ∈ d.children, p.children ≠ [] := by
    intro p hp
    have := hd.2 p hp
    simpa [List.isEmpty_iff] using this
  have hdne : d.children ≠ [] := by simpa [List.isEmpty_iff] using hd.1
  obtain ⟨hcrash, hfound⟩ := scanParas_sound d.children 0 0 hne hpos
  cases hs : scanParas pos d.children 0 0 with
  | found r =>
    obtain ⟨j, para, run, hp, hpi, hrun, h0, hle⟩ := hfound r hs
    refine ⟨r, para, run, ?_, ?_, hrun, h0, hle⟩
    · simp only [resolvePosition, hs]
    · rw [hpi]
      simpa using hp
  | crash => exact absurd hs hcrash
  | fallthrough =>
    obtain ⟨lastPara, hlp⟩ : ∃ q, d.children.getLast? = some q := by
      cases hgl : d.children.getLast? with
      | none => exact absurd (List.getLast?_eq_none_iff.mp hgl) hdne
      | some q => exact ⟨q, rfl⟩
    obtain ⟨lastRun, hlr⟩ : ∃ u, lastPara.children.getLast? = some u := by
      cases hgl : lastPara.children.getLast? with
      | none =>
        exact absurd (List.getLast?_eq_none_iff.mp hgl) (hne lastPara (mem_of_getLast?_eq hlp))
      | some u => exact ⟨u, rfl⟩
    refine ⟨⟨d.children.length - 1, lastPara.children.length - 1, (lastRun.text.length : Int)⟩,
      lastPara, lastRun, ?_, ?_, ?_, Int.natCast_nonneg _, le_refl _⟩
    · simp only [resolvePosition, hs, hlp, hlr]
    · rw [← List.getLast?_eq_getElem?]
      exact hlp
    · rw [← List.getLast?_eq_getElem?]
      exact hlr

theorem resolvePosition_neg (d : DocNode) (pos : Int)
    (hd : docNonempty d = true) (hneg : pos < 0) :
    resolvePosition d pos = some ⟨0, 0, pos⟩ := by
  simp only [docNonempty, Bool.and_eq_true, List.all_eq_true] at hd
  rcases hc : d.children with _ | ⟨p, rest⟩
  · rw [hc] at hd
    simp at hd
  · have hp : p ∈ d.children := by
      rw [hc]
      exact List.mem_cons_self _ _
    have hpc2 := hd.2 p hp
    rcases hpc : p.children with _ | ⟨t, ts⟩
    · rw [hpc] at hpc2
      simp at hpc2
    · have hcond : pos ≤ 0 + (t.text.length : Int) := by
        have h0 : (0 : Int) ≤ (t.text.length : Int) := Int.natCast_nonneg _
        omega
      simp only [resolvePosition, hc, scanParas, hpc, scanRuns, if_pos hcond]
      simp

/-- C3 (amended): on a document satisfying the structural invariant,
`resolvePosition` always returns a location (never `none`), and for every
`pos >= 0` — including `pos > length(doc)`, clamped to the end — the
location is in range: paragraph and run indices address existing nodes and
`0 <= offset <= run text length`. For `pos < 0` the source does NOT clamp:
it returns paragraph 0, run 0 with the negative offset `pos` itself (see
the counterexample). -/
theorem resolvePosition_spec (d : DocNode) (pos : Int) (hd : docInvariant d = true) :
    (∃ r, resolvePosition d pos = some r) ∧
    (0 ≤ pos → ∃ r para run, resolvePosition d pos = some r ∧
      d.children[r.paraIndex]? = some para ∧
      para.children[r.textIndex]? = some run ∧
      0 ≤ r.offset ∧ r.offset ≤ (run.text.length : Int)) := by
  have hdn := docNonempty_of_docInvariant hd
  constructor
  · by_cases h0 : 0 ≤ pos
    · obtain ⟨r, _, _, hr, _⟩ := resolvePosition_some_valid d pos hdn h0
      exact ⟨r, hr⟩
    · exact ⟨_, resolvePosition_neg d pos hdn (by omega)⟩
  · intro h0
    exact resolvePosition_some_valid d pos hdn h0

/-- Witness for C3 (amended) at a concrete document and offset past the
document end (clamped). -/
theorem resolvePosition_spec_witness :
    docInvariant twoParaDoc = true ∧
    ((∃ r, resolvePosition twoParaDoc 99 = some r) ∧
     (0 ≤ (99 : Int) → ∃ r para run, resolvePosition twoParaDoc 99 = some r ∧
       twoParaDoc.children[r.paraIndex]? = some para ∧
       para.children[r.textIndex]? = some run ∧
       0 ≤ r.offset ∧ r.offset ≤ (run.text.length : Int))) :=
  ⟨by decide, resolvePosition_spec twoParaDoc 99 (by decide)⟩

/-- Counterexample to C3 as stated: for `pos = -1` on a well-formed
document, `resolvePosition` returns offset `-1`, which is not clamped into
`[0, run length]`. -/
theorem resolvePosition_clamp_counterexample :
    resolvePosition singleADoc (-1) = some ⟨0, 0, -1⟩ ∧ ((-1 : Int) < 0) := by
  constructor
  · decide
  · decide

/-! C6: length conservation of `insertText`. -/

theorem children_ne_nil_of_docInvariant {d : DocNode} (h : docInvariant d = true) :
    d.children ≠ [] := by
  simp only [docInvariant, Bool.and_eq_true] at h
  simpa [List.isEmpty_iff] using h.1

theorem optRun_len_sum (t : TextNode) :
    (((if t.text.isEmpty then [] else [t]) : List TextNode).map
      (fun u => u.text.length)).sum = t.text.length := by
  by_cases h : t.text.isEmpty = true
  · rw [if_pos h]
    have : t.text = [] := by simpa [List.isEmpty_iff] using h
    simp [this]
  · rw [if_neg h]
    simp

theorem set_len_sum (children : List TextNode) (i : Nat) (run newRun : TextNode)
    (h : children[i]? = some run) :
    ((children.set i newRun).map (fun u => u.text.length)).sum + run.text.length =
      (children.map (fun u => u.text.length)).sum + newRun.text.length := by
  have hmp : (children.map (fun u => u.text.length))[i]? = some run.text.length := by
    rw [List.getElem?_map, h]
    rfl
  have hns := natSum_set (children.map (fun u => u.text.length)) i
    newRun.text.length run.text.length hmp
  rw [List.map_set]
  exact hns

theorem splice_len_sum (children : List TextNode) (i : Nat) (run : TextNode)
    (pieces : List TextNode) (h : children[i]? = some run) :
    ((spliceAt children i pieces).map (fun u => u.text.length)).sum + run.text.length =
      (children.map (fun u => u.text.length)).sum +
        (pieces.map (fun u => u.text.length)).sum := by
  unfold spliceAt
  have hmp : (children.map (fun u => u.text.length))[i]? = some run.text.length := by
    rw [List.getElem?_map, h]
    rfl
  have htd := natSum_take_drop (children.map (fun u => u.text.length)) i run.text.length hmp
  simp only [List.map_append, List.sum_append, List.map_take, List.map_drop]
  omega

theorem insertText_reduces_aux (d : DocNode) (pos : Int) (s : List Char)
    (hd : docInvariant d = true) (r : ResolvedPos) (para : ParagraphNode)
    (nc : List TextNode)
    (heq : insertText d pos s [] = normalizeDoc ⟨d.children.set r.paraIndex ⟨nc⟩⟩)
    (hp : d.children[r.paraIndex]? = some para)
    (hs : (nc.map (fun t => t.text.length)).sum = paraTextLength para + s.length) :
    getDocLength (insertText d pos s []) = getDocLength d + s.length := by
  rw [heq, getDocLength_normalizeDoc, getDocLength_eq, getDocLength_eq]
  have hmp : (d.children.map paraTextLength)[r.paraIndex]? = some (paraTextLength para) := by
    rw [List.getElem?_map, hp]
    rfl
  have hset := natSum_set (d.children.map paraTextLength) r.paraIndex
    (paraTextLength ⟨nc⟩) (paraTextLength para) hmp
  have hdoc : docTextLength ⟨d.children.set r.paraIndex ⟨nc⟩⟩ =
      ((d.children.map paraTextLength).set r.paraIndex (paraTextLength ⟨nc⟩)).sum := by
    unfold docTextLength
    rw [List.map_set]
  have plnc : paraTextLength (⟨nc⟩ : ParagraphNode) = paraTextLength para + s.length := by
    rw [paraTextLength_eq_sum]
    exact hs
  have hdd : docTextLength d = (d.children.map paraTextLength).sum := rfl
  have hgoal : docTextLength ⟨d.children.set r.paraIndex ⟨nc⟩⟩ = docTextLength d + s.length := by
    rw [hdoc]
    omega
  have hclen : (⟨d.children.set r.paraIndex ⟨nc⟩⟩ : DocNode).children.length =
      d.children.length := by
    show (d.children.set r.paraIndex ⟨nc⟩).length = d.children.length
    exact List.length_set ..
  have hPpos : 0 < d.children.length :=
    List.length_pos.mpr (children_ne_nil_of_docInvariant hd)
  rw [hgoal, hclen]
  omega

/-- C6: for a document satisfying the structural invariant and a valid
position `0 <= pos <= length(doc)`, inserting a string with the empty mark
set grows the document length by exactly the string's length. -/
theorem insertText_length (d : DocNode) (pos : Int) (s : List Char)
    (hd : docInvariant d = true) (h0 : 0 ≤ pos) (hle : pos ≤ (getDocLength d : Int)) :
    getDocLength (insertText d pos s []) = getDocLength d + s.length := by
  obtain ⟨r, para, run, hr, hp, hrun, hoff0, hoffle⟩ :=
    resolvePosition_some_valid d pos (docNonempty_of_docInvariant hd) h0
  have hlenrun : (jsSlice run.text 0 r.offset).length +
      (jsSliceFrom run.text r.offset).length = run.text.length :=
    length_jsSlice_split run.text r.offset
  by_cases hm : marksEqual run.marks [] = true
  · have hred : insertText d pos s [] = normalizeDoc ⟨d.children.set r.paraIndex
        ⟨para.children.set r.textIndex
          ⟨jsSlice run.text 0 r.offset ++ s ++ jsSliceFrom run.text r.offset, run.marks⟩⟩⟩ := by
      simp only [insertText, hr, hp, hrun, hm, if_true]
    refine insertText_reduces_aux d pos s hd r para _ hred hp ?_
    have hss := set_len_sum para.children r.textIndex run
      ⟨jsSlice run.text 0 r.offset ++ s ++ jsSliceFrom run.text r.offset, run.marks⟩ hrun
    simp only [List.length_append] at hss
    rw [paraTextLength_eq_sum]
    omega
  · rw [Bool.not_eq_true] at hm
    have hred : insertText d pos s [] = normalizeDoc ⟨d.children.set r.paraIndex
        ⟨spliceAt para.children r.textIndex
          ((if (jsSlice run.text 0 r.offset).isEmpty then []
            else [⟨jsSlice run.text 0 r.offset, run.marks⟩]) ++
           [⟨s, []⟩] ++
           (if (jsSliceFrom run.text r.offset).isEmpty then []
            else [⟨jsSliceFrom run.text r.offset, run.marks⟩]))⟩⟩ := by
      simp only [insertText, hr, hp, hrun, hm, Bool.false_eq_true, if_false]
    refine insertText_reduces_aux d pos s hd r para _ hred hp ?_
    have hsplice := splice_len_sum para.children r.textIndex run
      ((if (jsSlice run.text 0 r.offset).isEmpty then []
        else [⟨jsSlice run.text 0 r.offset, run.marks⟩]) ++
       [⟨s, []⟩] ++
       (if (jsSliceFrom run.text r.offset).isEmpty then []
        else [⟨jsSliceFrom run.text r.offset, run.marks⟩])) hrun
    have hb := optRun_len_sum ⟨jsSlice run.text 0 r.offset, run.marks⟩
    have ha := optRun_len_sum ⟨jsSliceFrom run.text r.offset, run.marks⟩
    simp only [List.map_append, List.sum_append] at hsplice
    simp only [] at hb ha
    rw [paraTextLength_eq_sum]
    simp only [List.map_cons, List.map_nil, List.sum_cons, List.sum_nil] at hsplice
    omega

/-- Witness for C6 at a concrete document, position and string. -/
theorem insertText_length_witness :
    (docInvariant twoParaDoc = true ∧ (0 : Int) ≤ 4 ∧
      (4 : Int) ≤ (getDocLength twoParaDoc : Int)) ∧
    getDocLength (insertText twoParaDoc 4 "xy".toList []) =
      getDocLength twoParaDoc + "xy".toList.length :=
  ⟨⟨by decide, by decide, by decide⟩,
   insertText_length twoParaDoc 4 "xy".toList (by decide) (by decide) (by decide)⟩

/-! C1 and C10: `splitParagraph`. -/

theorem take_append_cons {α : Type} (A : List α) (x : α) (B : List α) :
    (A ++ x :: B).take (A.length + 1) = A ++ [x] := by
  rw [List.take_append]
  rfl

theorem drop_append_cons {α : Type} (A : List α) (x : α) (B : List α) :
    (A ++ x :: B).drop (A.length + 1) = B := by
  rw [List.drop_append]
  rfl

theorem splice_set_insert {α : Type} (l : List α) (i : Nat) (x y : α) (h : i < l.length) :
    (l.set i x).take (i + 1) ++ [y] ++ (l.set i x).drop (i + 1) =
      l.take i ++ x :: y :: l.drop (i + 1) := by
  have hset : l.set i x = l.take i ++ x :: l.drop (i + 1) := by
    rw [List.set_eq_take_append_cons_drop, if_pos h]
  rw [hset]
  have hAl : (l.take i).length = i := by
    rw [List.length_take]
    omega
  generalize hA : l.take i = A at hAl ⊢
  generalize hB : l.drop (i + 1) = B
  subst hAl
  rw [take_append_cons, drop_append_cons]
  simp

theorem splitParagraph_reduce (d : DocNode) (pos : Int) (r : ResolvedPos)
    (para : ParagraphNode) (hr : resolvePosition d pos = some r)
    (hp : d.children[r.paraIndex]? = some para) :
    splitParagraph d pos = normalizeDoc ⟨d.children.take r.paraIndex ++
      ⟨[⟨jsSlice (paraFlatText para) 0 r.offset, []⟩]⟩ ::
      ⟨[⟨jsSliceFrom (paraFlatText para) r.offset, []⟩]⟩ ::
      d.children.drop (r.paraIndex + 1)⟩ := by
  have hlt : r.paraIndex < d.children.length := (List.getElem?_eq_some.mp hp).1
  simp only [splitParagraph, hr, hp]
  congr 1
  congr 1
  exact splice_set_insert d.children r.paraIndex
    ⟨[⟨jsSlice (paraFlatText para) 0 r.offset, []⟩]⟩
    ⟨[⟨jsSliceFrom (paraFlatText para) r.offset, []⟩]⟩ hlt

theorem paraTextLength_single (s : List Char) :
    paraTextLength ⟨[⟨s, []⟩]⟩ = s.length := by
  rw [paraTextLength_eq_sum]
  simp

/-- C10: on a document satisfying the structural invariant and a position
`0 <= pos <= length(doc)`, `splitParagraph` increases the paragraph count
by exactly one and the document length by exactly one (the two halves
always concatenate to the original paragraph's flattened text). -/
theorem splitParagraph_counts (d : DocNode) (pos : Int)
    (hd : docInvariant d = true) (h0 : 0 ≤ pos) (hle : pos ≤ (getDocLength d : Int)) :
    (splitParagraph d pos).children.length = d.children.length + 1 ∧
    getDocLength (splitParagraph d pos) = getDocLength d + 1 := by
  obtain ⟨r, para, run, hr, hp, hrun, hoff0, hoffle⟩ :=
    resolvePosition_some_valid d pos (docNonempty_of_docInvariant hd) h0
  have hlt : r.paraIndex < d.children.length := (List.getElem?_eq_some.mp hp).1
  rw [splitParagraph_reduce d pos r para hr hp]
  have hLne : (d.children.take r.paraIndex ++
      (⟨[⟨jsSlice (paraFlatText para) 0 r.offset, []⟩]⟩ : ParagraphNode) ::
      (⟨[⟨jsSliceFrom (paraFlatText para) r.offset, []⟩]⟩ : ParagraphNode) ::
      d.children.drop (r.paraIndex + 1)) ≠ [] := by
    simp
  constructor
  · rw [normalizeDoc_children_length _ hLne]
    simp only [List.length_append, List.length_cons, List.length_take, List.length_drop]
    omega
  · rw [getDocLength_normalizeDoc, getDocLength_eq, getDocLength_eq]
    have hsum : docTextLength ⟨d.children.take r.paraIndex ++
        (⟨[⟨jsSlice (paraFlatText para) 0 r.offset, []⟩]⟩ : ParagraphNode) ::
        (⟨[⟨jsSliceFrom (paraFlatText para) r.offset, []⟩]⟩ : ParagraphNode) ::
        d.children.drop (r.paraIndex + 1)⟩ = docTextLength d := by
      unfold docTextLength
      simp only [List.map_append, List.map_cons, List.sum_append, List.sum_cons,
        List.map_take, List.map_drop]
      rw [paraTextLength_single, paraTextLength_single]
      have hmp : (d.children.map paraTextLength)[r.paraIndex]? =
          some (paraTextLength para) := by
        rw [List.getElem?_map, hp]
        rfl
      have htd := natSum_take_drop (d.children.map paraTextLength) r.paraIndex
        (paraTextLength para) hmp
      have hhalves : (jsSlice (paraFlatText para) 0 r.offset).length +
          (jsSliceFrom (paraFlatText para) r.offset).length = paraTextLength para := by
        rw [length_jsSlice_split, paraFlatText_length]
      omega
    have hcl : (⟨d.children.take r.paraIndex ++
        (⟨[⟨jsSlice (paraFlatText para) 0 r.offset, []⟩]⟩ : ParagraphNode) ::
        (⟨[⟨jsSliceFrom (paraFlatText para) r.offset, []⟩]⟩ : ParagraphNode) ::
        d.children.drop (r.paraIndex + 1)⟩ : DocNode).children.length =
        d.children.length + 1 := by
      simp only [List.length_append, List.length_cons, List.length_take, List.length_drop]
      omega
    rw [hsum, hcl]
    have hPpos : 0 < d.children.length :=
      List.length_pos.mpr (children_ne_nil_of_docInvariant hd)
    omega

/-- Witness for C10 at a concrete document and position. -/
theorem splitParagraph_counts_witness :
    (docInvariant twoParaDoc = true ∧ (0 : Int) ≤ 2 ∧
      (2 : Int) ≤ (getDocLength twoParaDoc : Int)) ∧
    ((splitParagraph twoParaDoc 2).children.length = twoParaDoc.children.length + 1 ∧
     getDocLength (splitParagraph twoParaDoc 2) = getDocLength twoParaDoc + 1) :=
  ⟨⟨by decide, by decide, by decide⟩,
   splitParagraph_counts twoParaDoc 2 (by decide) (by decide) (by decide)⟩

theorem paraNormalized_single_unmarked (s : List Char) :
    paraNormalized ⟨[⟨s, []⟩]⟩ = true := by
  simp only [paraNormalized, paraInvariant, Bool.and_eq_true]
  refine ⟨⟨⟨?_, ?_⟩, ?_⟩, ?_⟩
  · simp
  · rfl
  · rfl
  · show (!(⟨s, []⟩ : TextNode).text.isEmpty || (⟨s, []⟩ : TextNode).marks.isEmpty) = true
    simp

/-- C1 (amended): on a normalized document and a position
`0 <= pos <= length(doc)`, `splitParagraph` resolves `pos` and splits the
containing paragraph's flattened text at the RESOLVED IN-RUN offset
`r.offset` (not at the flattened-paragraph offset of `pos`): the paragraph
is replaced by two paragraphs whose single unmarked runs carry the flat
text before and from that offset. For a paragraph with a single run the
in-run offset equals the flattened-paragraph offset, which yields the
"HelloWorld" example of the claim. -/
theorem splitParagraph_spec (d : DocNode) (pos : Int)
    (hd : isNormalizedDoc d = true) (h0 : 0 ≤ pos) (hle : pos ≤ (getDocLength d : Int)) :
    ∃ r para, resolvePosition d pos = some r ∧
      d.children[r.paraIndex]? = some para ∧
      splitParagraph d pos =
        ⟨d.children.take r.paraIndex ++
          ⟨[⟨(paraFlatText para).take r.offset.toNat, []⟩]⟩ ::
          ⟨[⟨(paraFlatText para).drop r.offset.toNat, []⟩]⟩ ::
          d.children.drop (r.paraIndex + 1)⟩ := by
  have hdi := docInvariant_of_isNormalizedDoc hd
  obtain ⟨r, para, run, hr, hp, hrun, hoff0, hoffle⟩ :=
    resolvePosition_some_valid d pos (docNonempty_of_docInvariant hdi) h0
  refine ⟨r, para, hr, hp, ?_⟩
  have hrm : run ∈ para.children := by
    obtain ⟨_, hg⟩ := List.getElem?_eq_some.mp hrun
    exact hg ▸ List.getElem_mem _
  have hofle2 : r.offset ≤ ((paraFlatText para).length : Int) := by
    have h1 : run.text.length ≤ paraTextLength para := by
      rw [paraTextLength_eq_sum]
      exact List.single_le_sum (fun _ _ => Nat.zero_le _) _
        (List.mem_map.mpr ⟨run, hrm, rfl⟩)
    rw [paraFlatText_length]
    omega
  rw [splitParagraph_reduce d pos r para hr hp,
    jsSlice_zero_eq_take _ _ hoff0 hofle2, jsSliceFrom_eq_drop _ _ hoff0 hofle2]
  apply normalizeDoc_of_isNormalized
  simp only [isNormalizedDoc, Bool.and_eq_true, List.all_eq_true]
  constructor
  · simp
  · intro q hq
    simp only [List.mem_append, List.mem_cons] at hq
    have hall : ∀ w ∈ d.children, paraNormalized w = true := by
      have := hd
      simp only [isNormalizedDoc, Bool.and_eq_true, List.all_eq_true] at this
      exact this.2
    rcases hq with hq | hq | hq | hq
    · exact hall q (List.mem_of_mem_take hq)
    · subst hq
      exact paraNormalized_single_unmarked _
    · subst hq
      exact paraNormalized_single_unmarked _
    · exact hall q (List.mem_of_mem_drop hq)

/-- Witness for C1 (amended) at the claim's own example: "HelloWorld" split
at 5 yields the paragraphs "Hello" and "World". -/
theorem splitParagraph_spec_witness :
    (isNormalizedDoc helloWorldDoc = true ∧ (0 : Int) ≤ 5 ∧
      (5 : Int) ≤ (getDocLength helloWorldDoc : Int)) ∧
    (∃ r para, resolvePosition helloWorldDoc 5 = some r ∧
      helloWorldDoc.children[r.paraIndex]? = some para ∧
      splitParagraph helloWorldDoc 5 =
        ⟨helloWorldDoc.children.take r.paraIndex ++
          ⟨[⟨(paraFlatText para).take r.offset.toNat, []⟩]⟩ ::
          ⟨[⟨(paraFlatText para).drop r.offset.toNat, []⟩]⟩ ::
          helloWorldDoc.children.drop (r.paraIndex + 1)⟩) ∧
    splitParagraph helloWorldDoc 5 =
      ⟨[⟨[⟨"Hello".toList, []⟩]⟩, ⟨[⟨"World".toList, []⟩]⟩]⟩ :=
  ⟨⟨by decide, by decide, by decide⟩,
   splitParagraph_spec helloWorldDoc 5 (by decide) (by decide) (by decide),
   by decide⟩

/-- Counterexample to C1 as stated: in a paragraph with runs "ab" (bold)
and "cd" (unmarked), position 3 resolves into the second run at in-run
offset 1, and `splitParagraph` splits the flattened text "abcd" at offset
1 — producing "a" / "bcd" instead of the claimed flattened-offset split
"abc" / "d". -/
theorem splitParagraph_flat_offset_counterexample :
    splitParagraph multiRunDoc 3 =
      ⟨[⟨[⟨"a".toList, []⟩]⟩, ⟨[⟨"bcd".toList, []⟩]⟩]⟩ ∧
    splitParagraph multiRunDoc 3 ≠
      ⟨[⟨[⟨"abc".toList, []⟩]⟩, ⟨[⟨"d".toList, []⟩]⟩]⟩ ∧
    docInvariant multiRunDoc = true ∧
    getDocLength multiRunDoc = 4 := by
  refine ⟨by decide, by decide, by decide, by decide⟩

/-! C2: character-level semantics of `applyMarkToRange` and `normalizeDoc`. -/

theorem runsChars_nil : runsChars [] = [] := rfl

theorem runsChars_cons (t : TextNode) (l : List TextNode) :
    runsChars (t :: l) = runChars t ++ runsChars l := rfl

theorem runsChars_append :
    ∀ (a b : List TextNode), runsChars (a ++ b) = runsChars a ++ runsChars b := by
  intro a b
  induction a with
  | nil => rfl
  | cons t rest ih => simp only [List.cons_append, runsChars_cons, ih, List.append_assoc]

theorem runChars_length (t : TextNode) : (runChars t).length = t.text.length := by
  simp [runChars]

theorem canon_runChars (t : TextNode) :
    (runChars t).map canonPair = t.text.map (fun c => (c, sortMarks t.marks)) := by
  simp [runChars, List.map_map, canonPair, Function.comp]

theorem runChars_mapMarks (t : TextNode) (f : List MarkType → List MarkType) :
    runChars ⟨t.text, f t.marks⟩ = (runChars t).map (fun e => (e.1, f e.2)) := by
  simp [runChars, List.map_map, Function.comp]

theorem canon_mergeRunsAux :
    ∀ (l : List TextNode) (cur : TextNode),
      (runsChars (mergeRunsAux cur l)).map canonPair =
        ((runChars cur ++ runsChars l).map canonPair) := by
  intro l
  induction l with
  | nil => intro cur; simp [mergeRunsAux, runsChars_cons, runsChars_nil]
  | cons t rest ih =>
    intro cur
    by_cases hEq : marksEqual cur.marks t.marks = true
    · simp only [mergeRunsAux, hEq, if_true]
      rw [ih ⟨cur.text ++ t.text, cur.marks⟩]
      have hcc : runChars (⟨cur.text ++ t.text, cur.marks⟩ : TextNode) =
          runChars cur ++ (t.text.map (fun c => (c, cur.marks))) := by
        simp [runChars]
      rw [hcc]
      simp only [runsChars_cons, List.map_append, List.append_assoc]
      congr 2
      have hsm : sortMarks cur.marks = sortMarks t.marks := marksEqual_true_iff.mp hEq
      simp [List.map_map, canonPair, Function.comp, hsm, runChars]
    · rw [Bool.not_eq_true] at hEq
      simp only [mergeRunsAux, hEq, Bool.false_eq_true, if_false, runsChars_cons]
      rw [List.map_append, ih t]
      simp only [runsChars_cons, List.map_append, List.append_assoc]

theorem runsChars_filter (l : List TextNode) :
    runsChars (l.filter (fun t => decide (0 < t.text.length))) = runsChars l := by
  induction l with
  | nil => rfl
  | cons t rest ih =>
    by_cases hp : 0 < t.text.length
    · rw [List.filter_cons_of_pos (by simpa using hp), runsChars_cons, runsChars_cons, ih]
    · rw [List.filter_cons_of_neg (by simpa using hp), runsChars_cons, ih]
      have hz : t.text = [] := by
        have : t.text.length = 0 := by omega
        exact List.length_eq_zero.mp this
      simp [runChars, hz]

theorem canon_paraChars_normalizePara (p : ParagraphNode) :
    (paraChars (normalizePara p)).map canonPair = (paraChars p).map canonPair := by
  rcases hfl : p.children.filter (fun t => decide (0 < t.text.length)) with _ | ⟨f, fs⟩
  · have hnp : normalizePara p = ⟨[emptyRun]⟩ := by
      simp only [normalizePara, hfl]
      rfl
    rw [hnp]
    have h1 : paraChars (⟨[emptyRun]⟩ : ParagraphNode) = [] := rfl
    have h2 : paraChars p = [] := by
      show runsChars p.children = []
      rw [← runsChars_filter, hfl]
      rfl
    rw [h1, h2]
  · have hnp : normalizePara p = ⟨mergeRunsAux f fs⟩ := by
      simp only [normalizePara, hfl]
      rfl
    rw [hnp]
    show (runsChars (mergeRunsAux f fs)).map canonPair = (runsChars p.children).map canonPair
    rw [canon_mergeRunsAux, ← runsChars_cons, ← hfl, runsChars_filter]

theorem canonEntry_some (e : Char × List MarkType) :
    canonEntry (some e) = some (canonPair e) := by
  rcases e with ⟨c, ms⟩
  rfl

theorem canon_map_some (l : List (Char × List MarkType)) :
    (l.map some).map canonEntry = (l.map canonPair).map some := by
  simp only [List.map_map]
  exact List.map_congr_left (fun e _ => canonEntry_some e)

theorem canon_docCharsAux_map :
    ∀ (l : List ParagraphNode),
      (docCharsAux (l.map normalizePara)).map canonEntry =
        (docCharsAux l).map canonEntry := by
  intro l
  induction l with
  | nil => rfl
  | cons p rest ih =>
    rcases rest with _ | ⟨q, rest2⟩
    · show ((paraChars (normalizePara p)).map some).map canonEntry =
        ((paraChars p).map some).map canonEntry
      rw [canon_map_some, canon_map_some, canon_paraChars_normalizePara]
    · show ((paraChars (normalizePara p)).map some ++
          none :: docCharsAux ((q :: rest2).map normalizePara)).map canonEntry =
        ((paraChars p).map some ++ none :: docCharsAux (q :: rest2)).map canonEntry
      simp only [List.map_append, List.map_cons] at ih ⊢
      rw [canon_map_some, canon_map_some, canon_paraChars_normalizePara, ih]

theorem canon_docChars_normalizeDoc (d : DocNode) :
    (docChars (normalizeDoc d)).map canonEntry = (docChars d).map canonEntry := by
  rcases hc : d.children with _ | ⟨p, rest⟩
  · have : normalizeDoc d = ⟨[⟨[emptyRun]⟩]⟩ := by
      simp only [normalizeDoc, hc]
      rfl
    rw [this]
    unfold docChars
    rw [hc]
    rfl
  · have : normalizeDoc d = ⟨(p :: rest).map normalizePara⟩ := by
      simp only [normalizeDoc, hc]
      rfl
    rw [this]
    unfold docChars
    rw [hc]
    exact canon_docCharsAux_map (p :: rest)

theorem applyIdx_cons {α : Type} (g : Int → α → α) (s : Int) (x : α) (xs : List α) :
    applyIdx g s (x :: xs) = g s x :: applyIdx g (s + 1) xs := rfl

theorem applyIdx_append {α : Type} (g : Int → α → α) :
    ∀ (a b : List α) (s : Int),
      applyIdx g s (a ++ b) = applyIdx g s a ++ applyIdx g (s + (a.length : Int)) b := by
  intro a
  induction a with
  | nil => intro b s; simp [applyIdx]
  | cons x xs ih =>
    intro b s
    have harg : s + 1 + (xs.length : Int) = s + ((x :: xs).length : Int) := by
      simp only [List.length_cons]
      push_cast
      ring
    rw [List.cons_append, applyIdx_cons, applyIdx_cons, ih, harg]
    rfl

theorem applyIdx_getElem {α : Type} (g : Int → α → α) :
    ∀ (l : List α) (s : Int) (j : Nat),
      (applyIdx g s l)[j]? = (l[j]?).map (fun x => g (s + (j : Int)) x) := by
  intro l
  induction l with
  | nil => intro s j; simp [applyIdx]
  | cons x xs ih =>
    intro s j
    cases j with
    | zero => simp [applyIdx_cons]
    | succ j =>
      have harg : s + 1 + (j : Int) = s + ((j + 1 : Nat) : Int) := by
        push_cast
        ring
      simp only [applyIdx_cons, List.getElem?_cons_succ, ih, harg]

theorem applyIdx_pair_out (fp tp : Int) (f : List MarkType → List MarkType) :
    ∀ (l : List (Char × List MarkType)) (s : Int),
      (s + (l.length : Int) ≤ fp ∨ tp ≤ s) →
      applyIdx (pairTransform fp tp f) s l = l := by
  intro l
  induction l with
  | nil => intro s _; rfl
  | cons e rest ih =>
    intro s h
    simp only [List.length_cons] at h
    push_cast at h
    have hcond : ¬(fp ≤ s ∧ s < tp) := by omega
    have he : pairTransform fp tp f s e = e := by
      unfold pairTransform
      rw [if_neg hcond]
    rw [applyIdx_cons, he, ih (s + 1) (by omega)]

theorem applyIdx_pair_in (fp tp : Int) (f : List MarkType → List MarkType) :
    ∀ (l : List (Char × List MarkType)) (s : Int),
      fp ≤ s → s + (l.length : Int) ≤ tp →
      applyIdx (pairTransform fp tp f) s l = l.map (fun e => (e.1, f e.2)) := by
  intro l
  induction l with
  | nil => intro s _ _; rfl
  | cons e rest ih =>
    intro s h1 h2
    simp only [List.length_cons] at h2
    push_cast at h2
    have hcond : fp ≤ s ∧ s < tp := by omega
    have he : pairTransform fp tp f s e = (e.1, f e.2) := by
      unfold pairTransform
      rw [if_pos hcond]
    rw [applyIdx_cons, he, ih (s + 1) (by omega) (by omega), List.map_cons]

theorem jsSlice_eq_take_drop (s : List Char) (a b : Int) (h0 : 0 ≤ a)
    (hab : a ≤ b) (hbl : b ≤ (s.length : Int)) :
    jsSlice s a b = (s.take b.toNat).drop a.toNat := by
  unfold jsSlice
  rw [jsClamp_of_bounds s b (by omega) hbl, jsClamp_of_bounds s a h0 (by omega)]

theorem markRunPieces_chars (fp tp : Int) (f : List MarkType → List MarkType)
    (hfp : fp < tp) (t : TextNode) (ns : Int) :
    runsChars (markRunPieces fp tp f t ns) =
      applyIdx (pairTransform fp tp f) ns (runChars t) := by
  by_cases hout : ns + (t.text.length : Int) ≤ fp ∨ tp ≤ ns
  · have hred : markRunPieces fp tp f t ns = [t] := by
      unfold markRunPieces
      rw [if_pos (by simpa using hout)]
    rw [hred, runsChars_cons, runsChars_nil, List.append_nil]
    exact (applyIdx_pair_out fp tp f (runChars t) ns
      (by rw [runChars_length]; exact hout)).symm
  · by_cases hin : fp ≤ ns ∧ ns + (t.text.length : Int) ≤ tp
    · have hred : markRunPieces fp tp f t ns = [⟨t.text, f t.marks⟩] := by
        unfold markRunPieces
        rw [if_neg (by simpa using hout), if_pos (by simpa using hin)]
      rw [hred, runsChars_cons, runsChars_nil, List.append_nil, runChars_mapMarks]
      exact (applyIdx_pair_in fp tp f (runChars t) ns hin.1
        (by rw [runChars_length]; exact hin.2)).symm
    · -- partial overlap
      push_neg at hout hin
      have hlen0 : (0 : Int) ≤ (t.text.length : Int) := Int.natCast_nonneg _
      have hfpn : fp < ns + (t.text.length : Int) := by omega
      have hnst : ns < tp := by omega
      have hred : markRunPieces fp tp f t ns =
          (if 0 < max fp ns - ns then
            [⟨jsSlice t.text 0 (max fp ns - ns), t.marks⟩] else []) ++
          [⟨jsSlice t.text (max fp ns - ns) (min tp (ns + (t.text.length : Int)) - ns),
            f t.marks⟩] ++
          (if min tp (ns + (t.text.length : Int)) - ns < (t.text.length : Int) then
            [⟨jsSliceFrom t.text (min tp (ns + (t.text.length : Int)) - ns), t.marks⟩]
           else []) := by
        unfold markRunPieces
        rw [if_neg (by simpa using hout), if_neg (by simpa using hin)]
      rw [hred]
      have hlenpos : 0 < (t.text.length : Int) := by
        by_contra hc
        have hz : (t.text.length : Int) = 0 := by omega
        have h1 : fp ≤ ns := by omega
        have h2 := hin h1
        omega
      have hbe0 : 0 ≤ max fp ns - ns := by omega
      have hbeas : max fp ns - ns ≤ min tp (ns + (t.text.length : Int)) - ns := by omega
      have hasle : min tp (ns + (t.text.length : Int)) - ns ≤ (t.text.length : Int) := by
        omega
      -- abbreviations
      have hbeN : ((max fp ns - ns).toNat : Int) = max fp ns - ns := Int.toNat_of_nonneg hbe0
      have hasN : ((min tp (ns + (t.text.length : Int)) - ns).toNat : Int) =
          min tp (ns + (t.text.length : Int)) - ns := Int.toNat_of_nonneg (by omega)
      have hbeleN : (max fp ns - ns).toNat ≤
          (min tp (ns + (t.text.length : Int)) - ns).toNat := by omega
      have haslenN : (min tp (ns + (t.text.length : Int)) - ns).toNat ≤ t.text.length := by
        omega
      -- slice rewriting
      rw [jsSlice_zero_eq_take _ _ hbe0 (by omega),
        jsSlice_eq_take_drop _ _ _ hbe0 hbeas (by omega),
        jsSliceFrom_eq_drop _ _ (by omega) (by omega)]
      -- text decomposition t.text = A ++ B ++ C at the overlap boundaries
      have h3 : (t.text.take (min tp (ns + (t.text.length : Int)) - ns).toNat).take
          (max fp ns - ns).toNat = t.text.take (max fp ns - ns).toNat := by
        rw [List.take_take]
        congr 1
        omega
      have hsplit2 : t.text.take (min tp (ns + (t.text.length : Int)) - ns).toNat =
          t.text.take (max fp ns - ns).toNat ++
          (t.text.take (min tp (ns + (t.text.length : Int)) - ns).toNat).drop
            (max fp ns - ns).toNat := by
        conv_lhs => rw [← List.take_append_drop (max fp ns - ns).toNat
          (t.text.take (min tp (ns + (t.text.length : Int)) - ns).toNat)]
        rw [h3]
      have hdecText : t.text =
          t.text.take (max fp ns - ns).toNat ++
          (t.text.take (min tp (ns + (t.text.length : Int)) - ns).toNat).drop
            (max fp ns - ns).toNat ++
          t.text.drop (min tp (ns + (t.text.length : Int)) - ns).toNat :=
        calc t.text
            = t.text.take (min tp (ns + (t.text.length : Int)) - ns).toNat ++
              t.text.drop (min tp (ns + (t.text.length : Int)) - ns).toNat :=
              (List.take_append_drop _ _).symm
          _ = t.text.take (max fp ns - ns).toNat ++
              (t.text.take (min tp (ns + (t.text.length : Int)) - ns).toNat).drop
                (max fp ns - ns).toNat ++
              t.text.drop (min tp (ns + (t.text.length : Int)) - ns).toNat := by
              conv_lhs => rw [hsplit2]
      -- segment lengths
      have hAlen : ((t.text.take (max fp ns - ns).toNat).length : Int) = max fp ns - ns := by
        rw [List.length_take]
        omega
      have hBlen : (((t.text.take (min tp (ns + (t.text.length : Int)) - ns).toNat).drop
          (max fp ns - ns).toNat).length : Int) =
          (min tp (ns + (t.text.length : Int)) - ns) - (max fp ns - ns) := by
        rw [List.length_drop, List.length_take]
        omega
      -- the three chars segments
      have hchars : runChars t =
          (t.text.take (max fp ns - ns).toNat).map (fun c => (c, t.marks)) ++
          ((t.text.take (min tp (ns + (t.text.length : Int)) - ns).toNat).drop
            (max fp ns - ns).toNat).map (fun c => (c, t.marks)) ++
          (t.text.drop (min tp (ns + (t.text.length : Int)) - ns).toNat).map
            (fun c => (c, t.marks)) := by
        unfold runChars
        conv_lhs => rw [hdecText]
        rw [List.map_append, List.map_append]
      have hE1 : applyIdx (pairTransform fp tp f) ns
          ((t.text.take (max fp ns - ns).toNat).map (fun c => (c, t.marks))) =
          (t.text.take (max fp ns - ns).toNat).map (fun c => (c, t.marks)) := by
        by_cases hbepos : 0 < max fp ns - ns
        · apply applyIdx_pair_out
          left
          rw [List.length_map, hAlen]
          omega
        · have : (max fp ns - ns).toNat = 0 := by omega
          rw [this]
          rfl
      have hE2 : ∀ s2 : Int, s2 = ns + (max fp ns - ns) →
          applyIdx (pairTransform fp tp f) s2
          (((t.text.take (min tp (ns + (t.text.length : Int)) - ns).toNat).drop
            (max fp ns - ns).toNat).map (fun c => (c, t.marks))) =
          ((t.text.take (min tp (ns + (t.text.length : Int)) - ns).toNat).drop
            (max fp ns - ns).toNat).map (fun c => (c, f t.marks)) := by
        intro s2 hs2
        subst hs2
        rw [applyIdx_pair_in fp tp f _ _ (by omega)
          (by rw [List.length_map, hBlen]; omega)]
        rw [List.map_map]
        rfl
      have hE3 : ∀ s3 : Int,
          s3 = ns + (max fp ns - ns) +
            ((min tp (ns + (t.text.length : Int)) - ns) - (max fp ns - ns)) →
          applyIdx (pairTransform fp tp f) s3
          ((t.text.drop (min tp (ns + (t.text.length : Int)) - ns).toNat).map
            (fun c => (c, t.marks))) =
          (t.text.drop (min tp (ns + (t.text.length : Int)) - ns).toNat).map
            (fun c => (c, t.marks)) := by
        intro s3 hs3
        subst hs3
        by_cases haslt : min tp (ns + (t.text.length : Int)) - ns < (t.text.length : Int)
        · apply applyIdx_pair_out
          right
          have hmin : min tp (ns + (t.text.length : Int)) = tp := by omega
          omega
        · have : (min tp (ns + (t.text.length : Int)) - ns).toNat = t.text.length := by
            omega
          rw [this, List.drop_length]
          rfl
      have hRHS : applyIdx (pairTransform fp tp f) ns (runChars t) =
          (t.text.take (max fp ns - ns).toNat).map (fun c => (c, t.marks)) ++
          ((t.text.take (min tp (ns + (t.text.length : Int)) - ns).toNat).drop
            (max fp ns - ns).toNat).map (fun c => (c, f t.marks)) ++
          (t.text.drop (min tp (ns + (t.text.length : Int)) - ns).toNat).map
            (fun c => (c, t.marks)) := by
        rw [hchars, applyIdx_append, applyIdx_append]
        rw [hE1]
        rw [hE2 (ns + ((((t.text.take (max fp ns - ns).toNat).map
            (fun c => (c, t.marks))).length : Int)))
          (by rw [List.length_map, hAlen])]
        rw [hE3 (ns + (((((t.text.take (max fp ns - ns).toNat).map
            (fun c => (c, t.marks))) ++
            (((t.text.take (min tp (ns + (t.text.length : Int)) - ns).toNat).drop
              (max fp ns - ns).toNat).map (fun c => (c, t.marks)))).length : Int)))
          (by rw [List.length_append, List.length_map, List.length_map]
              push_cast
              omega)]
      rw [hRHS]
      -- the pieces side
      rw [runsChars_append, runsChars_append]
      congr 1
      · congr 1
        · by_cases hbepos : 0 < max fp ns - ns
          · rw [if_pos hbepos, runsChars_cons, runsChars_nil, List.append_nil]
            rfl
          · rw [if_neg hbepos]
            have : (max fp ns - ns).toNat = 0 := by omega
            rw [this]
            rfl
        · rw [runsChars_cons, runsChars_nil, List.append_nil]
          rfl
      · by_cases haslt : min tp (ns + (t.text.length : Int)) - ns < (t.text.length : Int)
        · rw [if_pos haslt, runsChars_cons, runsChars_nil, List.append_nil]
          rfl
        · rw [if_neg haslt]
          have : (min tp (ns + (t.text.length : Int)) - ns).toNat = t.text.length := by
            omega
          rw [this, List.drop_length]
          rfl

theorem markRunsInPara_chars (fp tp : Int) (f : List MarkType → List MarkType)
    (hfp : fp < tp) :
    ∀ (runs : List TextNode) (cp : Int),
      runsChars (markRunsInPara fp tp f runs cp).1 =
        applyIdx (pairTransform fp tp f) cp (runsChars runs) ∧
      (markRunsInPara fp tp f runs cp).2 = cp + ((runsChars runs).length : Int) := by
  intro runs
  induction runs with
  | nil => intro cp; exact ⟨rfl, by simp [markRunsInPara, runsChars_nil]⟩
  | cons t rest ih =>
    intro cp
    obtain ⟨ih1, ih2⟩ := ih (cp + (t.text.length : Int))
    constructor
    · show runsChars (markRunPieces fp tp f t cp ++
        (markRunsInPara fp tp f rest (cp + (t.text.length : Int))).1) =
        applyIdx (pairTransform fp tp f) cp (runsChars (t :: rest))
      rw [runsChars_append, markRunPieces_chars fp tp f hfp t cp, ih1, runsChars_cons,
        applyIdx_append, runChars_length]
    · show (markRunsInPara fp tp f rest (cp + (t.text.length : Int))).2 =
        cp + ((runsChars (t :: rest)).length : Int)
      rw [ih2, runsChars_cons, List.length_append, runChars_length]
      push_cast
      ring

theorem markTransform_some (fp tp : Int) (f : List MarkType → List MarkType)
    (i : Int) (e : Char × List MarkType) :
    markTransform fp tp f i (some e) = some (pairTransform fp tp f i e) := by
  rcases e with ⟨c, ms⟩
  rfl

theorem applyIdx_markTransform_map_some (fp tp : Int)
    (f : List MarkType → List MarkType) :
    ∀ (l : List (Char × List MarkType)) (s : Int),
      applyIdx (markTransform fp tp f) s (l.map some) =
        (applyIdx (pairTransform fp tp f) s l).map some := by
  intro l
  induction l with
  | nil => intro s; rfl
  | cons e rest ih =>
    intro s
    rw [List.map_cons, applyIdx_cons, applyIdx_cons, List.map_cons,
      markTransform_some, ih]

theorem markParas_chars (fp tp : Int) (f : List MarkType → List MarkType)
    (hfp : fp < tp) :
    ∀ (paras : List ParagraphNode) (cp : Int),
      docCharsAux (markParas fp tp f paras cp) =
        applyIdx (markTransform fp tp f) cp (docCharsAux paras) := by
  intro paras
  induction paras with
  | nil => intro cp; rfl
  | cons p rest ih =>
    intro cp
    obtain ⟨h1, h2⟩ := markRunsInPara_chars fp tp f hfp p.children cp
    rcases rest with _ | ⟨q, rest2⟩
    · show (runsChars (markRunsInPara fp tp f p.children cp).1).map some =
        applyIdx (markTransform fp tp f) cp ((paraChars p).map some)
      rw [h1, applyIdx_markTransform_map_some]
      rfl
    · show (runsChars (markRunsInPara fp tp f p.children cp).1).map some ++
        none :: docCharsAux (markParas fp tp f (q :: rest2)
          ((markRunsInPara fp tp f p.children cp).2 + 1)) =
        applyIdx (markTransform fp tp f) cp
          ((paraChars p).map some ++ none :: docCharsAux (q :: rest2))
      rw [applyIdx_append, applyIdx_cons]
      have hnone : markTransform fp tp f
          (cp + ((((paraChars p).map some).length : Nat) : Int)) none = none := rfl
      rw [hnone, h1, applyIdx_markTransform_map_some, ih, h2]
      have hlen : (((paraChars p).map some).length : Int) =
          ((runsChars p.children).length : Int) := by
        rw [List.length_map]
        rfl
      rw [hlen]
      rfl

theorem applyMarkToRange_reduce (d : DocNode) (fp tp : Int) (m : MarkType) (add : Bool)
    (hne : fp ≠ tp) :
    applyMarkToRange d fp tp m add = normalizeDoc
      ⟨markParas fp tp (fun ms => if add then addMark ms m else removeMark ms m)
        d.children 0⟩ := by
  unfold applyMarkToRange
  have hc : ¬((fp == tp) = true) := by simp [hne]
  rw [if_neg hc]

theorem canon_docChars_applyMark (d : DocNode) (fp tp : Int) (m : MarkType) (add : Bool)
    (hfp : fp < tp) :
    (docChars (applyMarkToRange d fp tp m add)).map canonEntry =
      (applyIdx (markTransform fp tp
        (fun ms => if add then addMark ms m else removeMark ms m)) 0
        (docChars d)).map canonEntry := by
  rw [applyMarkToRange_reduce d fp tp m add (by omega), canon_docChars_normalizeDoc]
  show (docCharsAux (markParas fp tp _ d.children 0)).map canonEntry = _
  rw [markParas_chars fp tp _ hfp d.children 0]
  rfl

theorem perm_of_sortMarks_eq {a b : List MarkType} (h : sortMarks a = sortMarks b) :
    List.Perm a b :=
  (sortMarks_perm a).symm.trans (h ▸ sortMarks_perm b)

theorem sortMarks_removeMark_congr {a b : List MarkType} (m : MarkType)
    (h : sortMarks a = sortMarks b) :
    sortMarks (removeMark a m) = sortMarks (removeMark b m) :=
  sortMarks_eq_of_perm (removeMark_perm (perm_of_sortMarks_eq h) m)

theorem canon_extract {x : Option (Option (Char × List MarkType))} {c : Char}
    {u : List MarkType}
    (h : x.map canonEntry = some (some (c, u))) :
    ∃ ms1, x = some (some (c, ms1)) ∧ sortMarks ms1 = u := by
  rcases x with _ | entry
  · simp at h
  · simp only [Option.map_some'] at h
    have he := Option.some.inj h
    rcases entry with _ | ⟨c1, ms1⟩
    · simp [canonEntry] at he
    · rw [canonEntry_some] at he
      have hpair := Option.some.inj he
      have hc1 : c1 = c := congrArg Prod.fst hpair
      have hms1 : sortMarks ms1 = u := congrArg Prod.snd hpair
      exact ⟨ms1, by rw [hc1], hms1⟩

theorem canon_entry_applyMark (d : DocNode) (fp tp : Int) (m : MarkType) (add : Bool)
    (i : Nat) (c : Char) (ms : List MarkType)
    (hlt : fp < tp) (hin1 : fp ≤ (i : Int)) (hin2 : (i : Int) < tp)
    (hchar : (docChars d)[i]? = some (some (c, ms))) :
    ∃ ms2, (docChars (applyMarkToRange d fp tp m add))[i]? = some (some (c, ms2)) ∧
      sortMarks ms2 = sortMarks (if add then addMark ms m else removeMark ms m) := by
  have L := canon_docChars_applyMark d fp tp m add hlt
  have e1 := congrArg (fun l => l[i]?) L
  simp only [List.getElem?_map, applyIdx_getElem, hchar, Option.map_some'] at e1
  have hcond : fp ≤ 0 + (i : Int) ∧ 0 + (i : Int) < tp := ⟨by omega, by omega⟩
  have htr : markTransform fp tp
      (fun ms => if add then addMark ms m else removeMark ms m)
      (0 + (i : Int)) (some (c, ms)) =
      some (c, if add then addMark ms m else removeMark ms m) := by
    show some (c, if fp ≤ 0 + (i : Int) ∧ 0 + (i : Int) < tp then _ else ms) = _
    rw [if_pos hcond]
  rw [htr, canonEntry_some] at e1
  have hcp : canonPair (c, (if add then addMark ms m else removeMark ms m)) =
      (c, sortMarks (if add then addMark ms m else removeMark ms m)) := rfl
  rw [hcp] at e1
  exact canon_extract e1

/-- C2 (amended): the add-then-remove toggle pair restores the mark set of
every character inside `[fromPos, toPos)` whose original mark set did NOT
already contain the mark (for such a character the pair acts as identity
on its mark set, compared as a sorted set); a character (and hence a run)
that already carried the mark instead loses it — see the counterexample. -/
theorem applyMark_toggle_restores (d : DocNode) (fp tp : Int) (m : MarkType)
    (i : Nat) (c : Char) (ms : List MarkType)
    (hlt : fp < tp) (hin1 : fp ≤ (i : Int)) (hin2 : (i : Int) < tp)
    (hchar : (docChars d)[i]? = some (some (c, ms)))
    (hm : hasMark ms m = false) :
    ∃ ms2,
      (docChars (applyMarkToRange (applyMarkToRange d fp tp m true) fp tp m false))[i]? =
        some (some (c, ms2)) ∧ sortMarks ms2 = sortMarks ms := by
  obtain ⟨ms1, hx1, hs1⟩ := canon_entry_applyMark d fp tp m true i c ms hlt hin1 hin2 hchar
  obtain ⟨ms2, hx2, hs2⟩ := canon_entry_applyMark (applyMarkToRange d fp tp m true)
    fp tp m false i c ms1 hlt hin1 hin2 hx1
  refine ⟨ms2, hx2, ?_⟩
  have hs1a : sortMarks ms1 = sortMarks (addMark ms m) := hs1
  have hs2a : sortMarks ms2 = sortMarks (removeMark ms1 m) := hs2
  rw [hs2a, sortMarks_removeMark_congr m hs1a, removeMark_addMark hm]

/-- Witness for C2 (amended) at a concrete document, range and character. -/
theorem applyMark_toggle_restores_witness :
    ((0 : Int) < 1 ∧ (0 : Int) ≤ (0 : Nat) ∧ ((0 : Nat) : Int) < 1 ∧
      (docChars singleADoc)[(0 : Nat)]? = some (some ('a', [])) ∧
      hasMark [] .bold = false) ∧
    (∃ ms2,
      (docChars (applyMarkToRange (applyMarkToRange singleADoc 0 1 .bold true)
        0 1 .bold false))[(0 : Nat)]? = some (some ('a', ms2)) ∧
      sortMarks ms2 = sortMarks []) :=
  ⟨⟨by decide, by decide, by decide, by decide, by decide⟩,
   applyMark_toggle_restores singleADoc 0 1 .bold 0 'a' []
     (by decide) (by decide) (by decide) (by decide) (by decide)⟩

/-- Counterexample to C2 as stated: a run that already carries the mark
keeps it over the `add` pass and loses it in the `remove` pass, so the
toggle pair does not restore its original mark set. -/
theorem applyMark_toggle_counterexample :
    applyMarkToRange (applyMarkToRange boldRunDoc 0 1 .bold true) 0 1 .bold false =
      ⟨[⟨[⟨"a".toList, []⟩]⟩]⟩ ∧
    applyMarkToRange (applyMarkToRange boldRunDoc 0 1 .bold true) 0 1 .bold false ≠
      boldRunDoc :=
  ⟨by decide, by decide⟩

/-! C8: the same-paragraph delete branch compares paragraph-local run
positions against absolute offsets, so deletes addressed to any paragraph
after the first remove the wrong characters (usually nothing). -/

/-- C8 (code-bug evidence): on the two-paragraph document "abc"/"def",
`deleteText` over `[5, 6)` — the character 'e' of the second paragraph —
returns the document unchanged, and the delete-then-insert round trip
produces "deef" instead of restoring "def". Deletes inside the first
paragraph (where local and absolute offsets coincide) do behave as
specified. -/
theorem deleteText_second_paragraph_bug :
    deleteText twoParaDoc 5 6 = twoParaDoc ∧
    insertText (deleteText twoParaDoc 5 6) 5 "e".toList [] =
      ⟨[⟨[⟨"abc".toList, []⟩]⟩, ⟨[⟨"deef".toList, []⟩]⟩]⟩ ∧
    insertText (deleteText twoParaDoc 5 6) 5 "e".toList [] ≠ twoParaDoc ∧
    deleteText ⟨[⟨[⟨"abc".toList, []⟩]⟩]⟩ 1 2 = ⟨[⟨[⟨"ac".toList, []⟩]⟩]⟩ :=
  ⟨by decide, by decide, by decide, by decide⟩

/-! C4: the renderer/parser round trip. -/

theorem style_fontWeight :
    ∀ (ms : List MarkType) (st : CssStyle),
      (ms.foldl applyMarkStyle st).fontWeight =
        if MarkType.bold ∈ ms then "bold".toList else st.fontWeight := by
  intro ms
  induction ms with
  | nil => intro st; simp
  | cons m rest ih =>
    intro st
    rw [List.foldl_cons, ih]
    cases m <;> simp [applyMarkStyle, List.mem_cons]

theorem style_fontStyle :
    ∀ (ms : List MarkType) (st : CssStyle),
      (ms.foldl applyMarkStyle st).fontStyle =
        if MarkType.italic ∈ ms then "italic".toList else st.fontStyle := by
  intro ms
  induction ms with
  | nil => intro st; simp
  | cons m rest ih =>
    intro st
    rw [List.foldl_cons, ih]
    cases m <;> simp [applyMarkStyle, List.mem_cons]

theorem style_textDecoration :
    ∀ (ms : List MarkType) (st : CssStyle),
      (ms.foldl applyMarkStyle st).textDecoration =
        if MarkType.underline ∈ ms then "underline".toList else st.textDecoration := by
  intro ms
  induction ms with
  | nil => intro st; simp
  | cons m rest ih =>
    intro st
    rw [List.foldl_cons, ih]
    cases m <;> simp [applyMarkStyle, List.mem_cons]

theorem style_fontFamily :
    ∀ (ms : List MarkType) (st : CssStyle),
      (ms.foldl applyMarkStyle st).fontFamily =
        if MarkType.code ∈ ms then "monospace".toList else st.fontFamily := by
  intro ms
  induction ms with
  | nil => intro st; simp
  | cons m rest ih =>
    intro st
    rw [List.foldl_cons, ih]
    cases m <;> simp [applyMarkStyle, List.mem_cons]

theorem extract_marks_span (ms : List MarkType) :
    extractMarksFromElement "SPAN".toList (ms.foldl applyMarkStyle emptyStyle) =
      (if MarkType.bold ∈ ms then [MarkType.bold] else []) ++
      (if MarkType.italic ∈ ms then [MarkType.italic] else []) ++
      (if MarkType.underline ∈ ms then [MarkType.underline] else []) ++
      (if MarkType.code ∈ ms then [MarkType.code] else []) := by
  unfold extractMarksFromElement
  rw [style_fontWeight, style_fontStyle, style_textDecoration, style_fontFamily]
  by_cases hb : MarkType.bold ∈ ms <;>
    by_cases hi : MarkType.italic ∈ ms <;>
    by_cases hu : MarkType.underline ∈ ms <;>
    by_cases hc : MarkType.code ∈ ms <;>
    simp only [hb, hi, hu, hc, if_true, if_false] <;>
    decide

theorem canonical_marks_sort (ms : List MarkType) (hnd : ms.Nodup) :
    sortMarks ((if MarkType.bold ∈ ms then [MarkType.bold] else []) ++
      (if MarkType.italic ∈ ms then [MarkType.italic] else []) ++
      (if MarkType.underline ∈ ms then [MarkType.underline] else []) ++
      (if MarkType.code ∈ ms then [MarkType.code] else [])) = sortMarks ms := by
  apply sortMarks_eq_of_perm
  by_cases hb : MarkType.bold ∈ ms <;>
    by_cases hi : MarkType.italic ∈ ms <;>
    by_cases hu : MarkType.underline ∈ ms <;>
    by_cases hc : MarkType.code ∈ ms <;>
    simp only [hb, hi, hu, hc, if_true, if_false] <;>
    · refine (List.perm_ext_iff_of_nodup (by decide) hnd).mpr ?_
      intro a
      cases a <;> simp [hb, hi, hu, hc]

theorem canonical_marks_nodup (ms : List MarkType) :
    ((if MarkType.bold ∈ ms then [MarkType.bold] else []) ++
      (if MarkType.italic ∈ ms then [MarkType.italic] else []) ++
      (if MarkType.underline ∈ ms then [MarkType.underline] else []) ++
      (if MarkType.code ∈ ms then [MarkType.code] else [])).Nodup := by
  by_cases hb : MarkType.bold ∈ ms <;>
    by_cases hi : MarkType.italic ∈ ms <;>
    by_cases hu : MarkType.underline ∈ ms <;>
    by_cases hc : MarkType.code ∈ ms <;>
    simp only [hb, hi, hu, hc, if_true, if_false] <;>
    decide

theorem foldl_dedup :
    ∀ (l acc : List MarkType), l.Nodup → (∀ m ∈ l, m ∉ acc) →
      l.foldl (fun acc m => if acc.contains m then acc else acc ++ [m]) acc =
        acc ++ l := by
  intro l
  induction l with
  | nil => intro acc _ _; simp
  | cons m rest ih =>
    intro acc hnd hdisj
    have hnm : acc.contains m = false := by
      simpa using hdisj m (List.mem_cons_self _ _)
    rw [List.foldl_cons]
    have hcond : ¬(acc.contains m = true) := by
      rw [hnm]
      simp
    rw [if_neg hcond]
    rw [ih (acc ++ [m]) (List.Nodup.of_cons hnd) ?hdisj2]
    · rw [List.append_assoc]
      rfl
    case hdisj2 =>
      intro x hx
      simp only [List.mem_append, List.mem_singleton]
      rintro (hxa | rfl)
      · exact hdisj x (List.mem_cons_of_mem _ hx) hxa
      · exact (List.nodup_cons.mp hnd).1 hx

theorem preserveWhitespace_id (s : List Char) (hsp : s.getLast? ≠ some ' ') :
    preserveWhitespace s = s := by
  unfold preserveWhitespace
  cases hg : s.getLast? with
  | none => rfl
  | some c =>
    show (if c = ' ' then s.dropLast ++ [nbsp] else s) = s
    rw [if_neg]
    intro hc
    exact hsp (by rw [hg, hc])

theorem extract_single_rendered (t : TextNode) (hne : t.text ≠ [])
    (hsafe : runRoundTripSafe t = true) :
    (extractTextNodes (renderTextNode t) []).map canonRun = [canonRun t] ∧
    extractTextNodes (renderTextNode t) [] ≠ [] := by
  have hnd : t.marks.Nodup ∧ t.text.getLast? ≠ some ' ' := by
    simp only [runRoundTripSafe, Bool.and_eq_true, decide_eq_true_eq] at hsafe
    refine ⟨hsafe.1, ?_⟩
    have h2 := hsafe.2
    simpa using h2
  have hpw : preserveWhitespace t.text = t.text := preserveWhitespace_id t.text hnd.2
  have hie : ¬(t.text.isEmpty = true) := by simpa [List.isEmpty_iff] using hne
  by_cases hm : t.marks.isEmpty = true
  · have hml : t.marks = [] := by simpa [List.isEmpty_iff] using hm
    have hred : renderTextNode t = .text t.text := by
      unfold renderTextNode
      rw [hpw, if_pos hm]
    rw [hred]
    have hext : extractTextNodes (.text t.text) [] = [⟨t.text, []⟩] := by
      show (if t.text.isEmpty = true then ([] : List TextNode) else [⟨t.text, []⟩]) = _
      rw [if_neg hie]
    rw [hext]
    constructor
    · simp [canonRun, hml]
    · simp
  · have hred : renderTextNode t =
        .element "SPAN".toList (t.marks.foldl applyMarkStyle emptyStyle)
          (.cons (.text t.text) .nil) := by
      unfold renderTextNode
      rw [hpw, if_neg hm, if_neg hie]
    rw [hred]
    have hfold : (extractMarksFromElement "SPAN".toList
        (t.marks.foldl applyMarkStyle emptyStyle)).foldl
          (fun acc m => if acc.contains m then acc else acc ++ [m]) [] =
        (if MarkType.bold ∈ t.marks then [MarkType.bold] else []) ++
        (if MarkType.italic ∈ t.marks then [MarkType.italic] else []) ++
        (if MarkType.underline ∈ t.marks then [MarkType.underline] else []) ++
        (if MarkType.code ∈ t.marks then [MarkType.code] else []) := by
      rw [extract_marks_span]
      rw [foldl_dedup _ [] (canonical_marks_nodup t.marks) (by intro x _; simp)]
      rfl
    have hext : extractTextNodes
        (.element "SPAN".toList (t.marks.foldl applyMarkStyle emptyStyle)
          (.cons (.text t.text) .nil)) [] =
        [⟨t.text,
          (if MarkType.bold ∈ t.marks then [MarkType.bold] else []) ++
          (if MarkType.italic ∈ t.marks then [MarkType.italic] else []) ++
          (if MarkType.underline ∈ t.marks then [MarkType.underline] else []) ++
          (if MarkType.code ∈ t.marks then [MarkType.code] else [])⟩] := by
      show (if ("SPAN".toList == "BR".toList) = true then ([] : List TextNode)
        else extractTextNodesList (.cons (.text t.text) .nil)
          ((extractMarksFromElement "SPAN".toList
            (t.marks.foldl applyMarkStyle emptyStyle)).foldl
            (fun acc m => if acc.contains m then acc else acc ++ [m]) [])) = _
      rw [if_neg (by decide), hfold]
      show extractTextNodes (.text t.text) _ ++ extractTextNodesList .nil _ = _
      show (if t.text.isEmpty = true then ([] : List TextNode) else [⟨t.text, _⟩]) ++ [] = _
      rw [if_neg hie, List.append_nil]
    rw [hext]
    constructor
    · have hc : canonRun ⟨t.text,
          (if MarkType.bold ∈ t.marks then [MarkType.bold] else []) ++
          (if MarkType.italic ∈ t.marks then [MarkType.italic] else []) ++
          (if MarkType.underline ∈ t.marks then [MarkType.underline] else []) ++
          (if MarkType.code ∈ t.marks then [MarkType.code] else [])⟩ = canonRun t := by
        unfold canonRun
        show TextNode.mk t.text _ = TextNode.mk t.text _
        rw [canonical_marks_sort t.marks hnd.1]
      rw [List.map_cons, List.map_nil, hc]
    · simp

theorem extract_rpc :
    ∀ (runs : List TextNode), runs ≠ [] →
      (∀ t ∈ runs, t.text ≠ [] ∧ runRoundTripSafe t = true) →
      (extractTextNodesList (renderParagraphChildren runs) []).map canonRun =
        runs.map canonRun ∧
      extractTextNodesList (renderParagraphChildren runs) [] ≠ [] := by
  intro runs
  induction runs with
  | nil => intro h; exact absurd rfl h
  | cons t rest ih =>
    intro _ hall
    obtain ⟨hne, hsafe⟩ := hall t (List.mem_cons_self _ _)
    obtain ⟨hm1, hm2⟩ := extract_single_rendered t hne hsafe
    have hie : ¬(t.text.isEmpty = true) := by simpa [List.isEmpty_iff] using hne
    rcases rest with _ | ⟨t2, rest2⟩
    · have hrpc : renderParagraphChildren [t] = .cons (renderTextNode t) .nil := by
        unfold renderParagraphChildren
        rw [if_neg hie]
      rw [hrpc]
      have hl : extractTextNodesList (.cons (renderTextNode t) .nil) [] =
          extractTextNodes (renderTextNode t) [] ++ [] := rfl
      rw [hl, List.append_nil]
      exact ⟨by rw [hm1]; rfl, hm2⟩
    · have hrpc : renderParagraphChildren (t :: t2 :: rest2) =
          .cons (renderTextNode t) (renderParagraphChildren (t2 :: rest2)) := rfl
      rw [hrpc]
      have hl : extractTextNodesList
          (.cons (renderTextNode t) (renderParagraphChildren (t2 :: rest2))) [] =
          extractTextNodes (renderTextNode t) [] ++
          extractTextNodesList (renderParagraphChildren (t2 :: rest2)) [] := rfl
      rw [hl]
      obtain ⟨ih1, ih2⟩ := ih (List.cons_ne_nil _ _)
        (fun u hu => hall u (List.mem_cons_of_mem _ hu))
      constructor
      · rw [List.map_append, hm1, ih1]
        rfl
      · intro hcontra
        exact hm2 (List.append_eq_nil.mp hcontra).1

theorem paraNormalized_empty_run {p : ParagraphNode} {t : TextNode}
    (h : paraNormalized p = true) (ht : t ∈ p.children) (htext : t.text = []) :
    p.children = [emptyRun] := by
  simp only [paraNormalized, paraInvariant, Bool.and_eq_true] at h
  obtain ⟨⟨⟨hne, hok⟩, _⟩, hsole⟩ := h
  rcases hc : p.children with _ | ⟨a, _ | ⟨b, rest2⟩⟩
  · rw [hc] at hne
    simp at hne
  · rw [hc] at ht hsole
    have hta : t = a := by simpa using ht
    subst hta
    have hsole2 : (!t.text.isEmpty || t.marks.isEmpty) = true := hsole
    rw [htext] at hsole2
    simp only [List.isEmpty_nil, Bool.not_true, Bool.false_or] at hsole2
    have hmarks : t.marks = [] := by simpa [List.isEmpty_iff] using hsole2
    have : t = emptyRun := by
      cases t
      simp only at htext hmarks
      rw [htext, hmarks]
      rfl
    rw [this]
  · exfalso
    rw [hc] at ht hok
    unfold runsOk at hok
    simp only [List.all_eq_true] at hok
    have := hok t ht
    simp [htext, List.isEmpty_iff] at this

theorem parse_render_para (p : ParagraphNode) (hnorm : paraNormalized p = true)
    (hsafe : p.children.all runRoundTripSafe = true) :
    (parseParagraph (renderParagraphChildren p.children)).children.map canonRun =
      p.children.map canonRun := by
  simp only [List.all_eq_true] at hsafe
  by_cases hallne : ∀ t ∈ p.children, t.text ≠ []
  · have hpne : p.children ≠ [] := by
      simp only [paraNormalized, paraInvariant, Bool.and_eq_true] at hnorm
      simpa [List.isEmpty_iff] using hnorm.1.1.1
    obtain ⟨h1, h2⟩ := extract_rpc p.children hpne
      (fun t ht => ⟨hallne t ht, hsafe t ht⟩)
    have hred : parseParagraph (renderParagraphChildren p.children) =
        ⟨extractTextNodesList (renderParagraphChildren p.children) []⟩ := by
      simp only [parseParagraph]
      rw [if_neg (by simpa [List.isEmpty_iff] using h2)]
    rw [hred]
    exact h1
  · push_neg at hallne
    obtain ⟨t, ht, htext⟩ := hallne
    have hch := paraNormalized_empty_run hnorm ht htext
    rw [hch]
    rfl

theorem collectBlocks_cons_renderTextNode (t : TextNode) (rest : DomForest) :
    collectBlocks (.cons (renderTextNode t) rest) = collectBlocks rest := by
  unfold renderTextNode
  by_cases hm : t.marks.isEmpty = true
  · rw [if_pos hm]
    rfl
  · rw [if_neg hm]
    by_cases he : (preserveWhitespace t.text).isEmpty = true
    · rw [if_pos he]
      rfl
    · rw [if_neg he]
      rfl

theorem collectBlocks_rpc :
    ∀ (runs : List TextNode), collectBlocks (renderParagraphChildren runs) = [] := by
  intro runs
  induction runs with
  | nil => rfl
  | cons t rest ih =>
    rcases rest with _ | ⟨t2, rest2⟩
    · unfold renderParagraphChildren
      by_cases he : t.text.isEmpty = true
      · rw [if_pos he]
        rfl
      · rw [if_neg he, collectBlocks_cons_renderTextNode]
        rfl
    · show collectBlocks
        (.cons (renderTextNode t) (renderParagraphChildren (t2 :: rest2))) = []
      rw [collectBlocks_cons_renderTextNode, ih]

theorem collectBlocks_renderDoc :
    ∀ (paras : List ParagraphNode),
      collectBlocks (renderDoc ⟨paras⟩) =
        paras.map (fun p => renderParagraphChildren p.children) := by
  intro paras
  induction paras with
  | nil => rfl
  | cons p rest ih =>
    show collectBlocks (.cons (renderParagraph p) (renderDoc ⟨rest⟩)) = _
    show (if (("P".toList == "P".toList || "P".toList == "DIV".toList)) = true
        then [renderParagraphChildren p.children] else []) ++
      collectBlocks (renderParagraphChildren p.children) ++
      collectBlocks (renderDoc ⟨rest⟩) = _
    rw [if_pos (by decide), collectBlocks_rpc, ih]
    simp

/-- C4 (amended): for every normalized document whose runs have
duplicate-free mark lists and whose run texts do not end in a plain space
(U+0020), parsing the rendered surface returns the same document with each
run's mark set preserved as a set (the parser emits marks in its fixed
probe order, so both sides are compared with sorted mark lists via
`docCanon`). A run text ending in a space is NOT preserved — the renderer
converts it to a non-breaking space which the parser keeps (see the
counterexample). -/
theorem render_parse_roundtrip (d : DocNode)
    (hd : isNormalizedDoc d = true) (hsafe : docRoundTripSafe d = true) :
    docCanon (parseEditorDOM (renderDoc d)) = docCanon d := by
  simp only [isNormalizedDoc, Bool.and_eq_true, List.all_eq_true] at hd
  simp only [docRoundTripSafe, List.all_eq_true] at hsafe
  have hblocks : collectBlocks (renderDoc d) =
      d.children.map (fun p => renderParagraphChildren p.children) :=
    collectBlocks_renderDoc d.children
  rcases hc : d.children with _ | ⟨p, rest⟩
  · rw [hc] at hd
    simp at hd
  · have hred : parseEditorDOM (renderDoc d) =
        ⟨(d.children.map (fun p => renderParagraphChildren p.children)).map
          parseParagraph⟩ := by
      unfold parseEditorDOM
      rw [hblocks, hc]
      rfl
    rw [hred]
    show DocNode.mk (((d.children.map (fun p => renderParagraphChildren p.children)).map
        parseParagraph).map (fun q => ⟨q.children.map canonRun⟩)) =
      ⟨d.children.map (fun q => ⟨q.children.map canonRun⟩)⟩
    rw [List.map_map, List.map_map]
    apply congrArg DocNode.mk
    apply List.map_congr_left
    intro q hq
    show (⟨(parseParagraph (renderParagraphChildren q.children)).children.map
      canonRun⟩ : ParagraphNode) = ⟨q.children.map canonRun⟩
    rw [parse_render_para q (hd.2 q hq) (by
      rw [List.all_eq_true]
      exact fun u hu => hsafe q hq u hu)]

/-- Witness for C4 (amended) at a concrete document with marked, unmarked
and empty paragraphs. -/
theorem render_parse_roundtrip_witness :
    (isNormalizedDoc roundTripDoc = true ∧ docRoundTripSafe roundTripDoc = true) ∧
    docCanon (parseEditorDOM (renderDoc roundTripDoc)) = docCanon roundTripDoc :=
  ⟨⟨by decide, by decide⟩,
   render_parse_roundtrip roundTripDoc (by decide) (by decide)⟩

/-- Counterexample to C4 as stated: a normalized document whose run text
ends in a space does not survive the round trip — the renderer writes a
non-breaking space (U+00A0) and the parser does not convert it back. -/
theorem render_parse_space_counterexample :
    isNormalizedDoc spaceRunDoc = true ∧
    parseEditorDOM (renderDoc spaceRunDoc) = ⟨[⟨[⟨['a', nbsp], []⟩]⟩]⟩ ∧
    parseEditorDOM (renderDoc spaceRunDoc) ≠ spaceRunDoc :=
  ⟨by decide, by decide, by decide⟩

/-- Witness for C5 at a concrete document and concrete arguments. -/
theorem editOps_preserve_docInvariant_witness :
    docInvariant twoParaDoc = true ∧
    (docInvariant (insertText twoParaDoc 1 "x".toList []) = true ∧
     docInvariant (deleteText twoParaDoc 0 2) = true ∧
     docInvariant (splitParagraph twoParaDoc 1) = true ∧
     docInvariant (applyMarkToRange twoParaDoc 0 2 .bold true) = true ∧
     docInvariant (clearMarksInRange twoParaDoc 0 2) = true ∧
     docInvariant (normalizeDoc twoParaDoc) = true) :=
  ⟨by decide,
   editOps_preserve_docInvariant twoParaDoc (by decide) 1 0 2 "x".toList [] .bold true⟩

end Richtext
